import Mathlib

/-!
Verification of the lipgloss Python port: a shallow embedding of the
style-rendering pipeline (src/lipgloss/style.py), the color resolver
(src/lipgloss/renderer.py, src/lipgloss/color.py), the table column-width
optimizer (src/lipgloss/table/resizing.py) and the table data sources
(src/lipgloss/table/rows.py).

Modelling conventions:
* Python strings are embedded as `List Char`.
* Measurement models the source's documented no-wcwidth fallback branch
  (`except ImportError`): every codepoint occupies one terminal cell, so
  `_char_width` is constantly 1 and `_visible_width` is the length of the
  ANSI-stripped string.
* Python floats used for alignment fractions are embedded as rationals;
  the source only compares them for equality with 0.5 / 1.0 and clamps
  them, operations on which rationals agree with IEEE doubles for every
  representable value.
* Python `//` and `%` are embedded as `Int.fdiv` / `Int.emod`
  (floor division), `str * n` as clamped replication.
* A raised Python exception is embedded as `Option.none`.
-/

namespace Lipgloss

/-- Embed a Lean string literal as a Python string (list of codepoints). -/
def pys (s : String) : List Char := s.data

/-- The ESC codepoint (0x1b). -/
def escChar : Char := '\x1b'

/-! ## ANSI escape recognition

The ANSI regex used by `style.py` and `size.py` matches, after an ESC
byte, either a single final byte in 0x40..0x5A or 0x5C..0x5F, or a CSI
sequence: an opening bracket, then parameter bytes 0x30..0x3F, then
intermediate bytes 0x20..0x2F, then one final byte 0x40..0x7E.
The three CSI character classes are pairwise disjoint, so the greedy
left-to-right scan below coincides with the regex. -/

/-- Single-character escape finals (regex chars 0x40..0x5A, 0x5C..0x5F). -/
def isEscSingleFinal (c : Char) : Bool :=
  (0x40 ≤ c.toNat && c.toNat ≤ 0x5A) || (0x5C ≤ c.toNat && c.toNat ≤ 0x5F)

/-- CSI parameter bytes (0x30..0x3F). -/
def isCsiParam (c : Char) : Bool := 0x30 ≤ c.toNat && c.toNat ≤ 0x3F

/-- CSI intermediate bytes (0x20..0x2F). -/
def isCsiInter (c : Char) : Bool := 0x20 ≤ c.toNat && c.toNat ≤ 0x2F

/-- CSI final bytes (0x40..0x7E). -/
def isCsiFinal (c : Char) : Bool := 0x40 ≤ c.toNat && c.toNat ≤ 0x7E

theorem length_dropWhile_le (p : Char → Bool) (l : List Char) :
    (l.dropWhile p).length ≤ l.length := by
  induction l with
  | nil => simp
  | cons c rest ih =>
    simp only [List.dropWhile]
    cases p c <;> simp <;> omega

/-- Try to parse one ANSI escape sequence immediately after an ESC byte.
On success returns `(consumed, rest)`: the characters of the sequence
after the ESC, and the remaining input. -/
def parseEsc : List Char → Option (List Char × List Char)
  | [] => none
  | c :: rest =>
    if isEscSingleFinal c then some ([c], rest)
    else if c = '[' then
      let ps := rest.takeWhile isCsiParam
      let r1 := rest.dropWhile isCsiParam
      let is := r1.takeWhile isCsiInter
      let r2 := r1.dropWhile isCsiInter
      match r2 with
      | f :: r3 => if isCsiFinal f then some ('[' :: (ps ++ is ++ [f]), r3) else none
      | [] => none
    else none

theorem parseEsc_rest_length {l m r : List Char} (h : parseEsc l = some (m, r)) :
    r.length < l.length := by
  cases l with
  | nil => simp [parseEsc] at h
  | cons c rest =>
    simp only [parseEsc] at h
    by_cases h1 : isEscSingleFinal c
    · simp [h1] at h
      simp [← h.2, List.length_cons]
    · simp only [h1, if_false] at h
      by_cases h2 : c = '['
      · simp only [h2, if_true] at h
        have hdrop1 : (rest.dropWhile isCsiParam).length ≤ rest.length :=
          length_dropWhile_le _ _
        have hdrop2 : ((rest.dropWhile isCsiParam).dropWhile isCsiInter).length ≤
            (rest.dropWhile isCsiParam).length := length_dropWhile_le _ _
        cases hr2 : (rest.dropWhile isCsiParam).dropWhile isCsiInter with
        | nil => simp [hr2] at h
        | cons f r3 =>
          simp only [hr2] at h
          by_cases h3 : isCsiFinal f
          · simp [h3] at h
            have hr3 : r3.length < rest.length + 1 := by
              rw [hr2] at hdrop2
              simp [List.length_cons] at hdrop2
              omega
            simp [← h.2, List.length_cons]
            omega
          · simp [h3] at h
      · simp [h2] at h

/-- Fuel-driven worker for `_strip_ansi`; the fuel only makes the
recursion structural and is always sufficient when it starts at the
input length (each step consumes at least one character). -/
def stripAnsiAux : Nat → List Char → List Char
  | 0, l => l
  | _ + 1, [] => []
  | fuel + 1, c :: rest =>
    if c = escChar then
      match parseEsc rest with
      | some (_, r) => stripAnsiAux fuel r
      | none => c :: stripAnsiAux fuel rest
    else c :: stripAnsiAux fuel rest

/-- `_strip_ansi` from `style.py` / `size.py`: remove every ANSI escape
sequence matched by the regex; unmatched ESC bytes are kept. -/
def stripAnsi (l : List Char) : List Char := stripAnsiAux l.length l

theorem stripAnsiAux_fuel_irrel :
    ∀ (f1 : Nat) (l : List Char) (f2 : Nat), l.length ≤ f1 → l.length ≤ f2 →
      stripAnsiAux f1 l = stripAnsiAux f2 l := by
  intro f1
  induction f1 with
  | zero =>
    intro l f2 h1 _
    have : l = [] := List.length_eq_zero.mp (Nat.le_zero.mp h1)
    subst this
    cases f2 <;> simp [stripAnsiAux]
  | succ f ih =>
    intro l f2 h1 h2
    cases l with
    | nil => cases f2 <;> simp [stripAnsiAux]
    | cons c rest =>
      cases f2 with
      | zero => simp at h2
      | succ g =>
        simp only [stripAnsiAux]
        have hrest : rest.length ≤ f := by simp at h1; omega
        have hrestg : rest.length ≤ g := by simp at h2; omega
        by_cases hc : c = escChar
        · simp only [hc, if_true]
          cases hp : parseEsc rest with
          | none => rw [ih rest g hrest hrestg]
          | some pr =>
            obtain ⟨m, r⟩ := pr
            have hr : r.length < rest.length := parseEsc_rest_length hp
            exact ih r g (by omega) (by omega)
        · simp only [hc, if_false]
          rw [ih rest g hrest hrestg]

theorem stripAnsi_nil : stripAnsi [] = [] := rfl

theorem stripAnsi_cons (c : Char) (rest : List Char) :
    stripAnsi (c :: rest) =
      if c = escChar then
        match parseEsc rest with
        | some (_, r) => stripAnsi r
        | none => c :: stripAnsi rest
      else c :: stripAnsi rest := by
  show stripAnsiAux (rest.length + 1) (c :: rest) = _
  simp only [stripAnsiAux]
  by_cases hc : c = escChar
  · simp only [hc, if_true]
    cases hp : parseEsc rest with
    | none => rfl
    | some pr =>
      obtain ⟨m, r⟩ := pr
      have hr : r.length < rest.length := parseEsc_rest_length hp
      show stripAnsiAux rest.length r = stripAnsi r
      exact stripAnsiAux_fuel_irrel rest.length r r.length (by omega) le_rfl
  · simp only [hc, if_false]
    rfl

theorem stripAnsi_cons_of_ne (c : Char) (rest : List Char) (hc : c ≠ escChar) :
    stripAnsi (c :: rest) = c :: stripAnsi rest := by
  rw [stripAnsi_cons]
  simp [hc]

/-- `_char_width` from `style.py`, no-wcwidth fallback: one cell per char. -/
def charWidth (_ : Char) : Nat := 1

/-- `_visible_width`: length of the ANSI-stripped string
(the no-wcwidth fallback branch of `style.py` / `size.py`). -/
def visWidth (l : List Char) : Nat := (stripAnsi l).length

/-- Python `str.split("\n")` (never returns an empty list). -/
def splitNl : List Char → List (List Char)
  | [] => [[]]
  | c :: rest =>
    if c = '\n' then [] :: splitNl rest
    else
      match splitNl rest with
      | h :: t => (c :: h) :: t
      | [] => [[c]]

/-- Python `"\n".join(lines)`. -/
def joinNl : List (List Char) → List Char
  | [] => []
  | [l] => l
  | l :: ls => l ++ '\n' :: joinNl ls

theorem splitNl_ne_nil (l : List Char) : splitNl l ≠ [] := by
  cases l with
  | nil => simp [splitNl]
  | cons c rest =>
    simp only [splitNl]
    by_cases h : c = '\n'
    · simp [h]
    · simp only [h, if_false]
      cases splitNl rest <;> simp

theorem joinNl_splitNl (l : List Char) : joinNl (splitNl l) = l := by
  induction l with
  | nil => simp [splitNl, joinNl]
  | cons c rest ih =>
    simp only [splitNl]
    by_cases h : c = '\n'
    · simp only [h, if_true]
      have hne := splitNl_ne_nil rest
      cases hs : splitNl rest with
      | nil => exact absurd hs hne
      | cons a as =>
        rw [hs] at ih
        simp only [joinNl]
        cases as <;> simp_all [joinNl]
    · simp only [h, if_false]
      cases hs : splitNl rest with
      | nil => exact absurd hs (splitNl_ne_nil rest)
      | cons a as =>
        rw [hs] at ih
        cases as with
        | nil => simpa [joinNl] using congrArg (c :: ·) ih
        | cons b bs =>
          simp only [joinNl] at ih ⊢
          simpa using congrArg (c :: ·) ih

theorem splitNl_joinNl (ls : List (List Char)) (hne : ls ≠ [])
    (h : ∀ l ∈ ls, '\n' ∉ l) : splitNl (joinNl ls) = ls := by
  induction ls with
  | nil => exact absurd rfl hne
  | cons a as ih =>
    have ha : '\n' ∉ a := h a (by simp)
    cases as with
    | nil =>
      simp only [joinNl]
      clear ih hne h
      induction a with
      | nil => simp [splitNl]
      | cons c cs ihc =>
        have hc : c ≠ '\n' := by intro hc; exact ha (by simp [hc])
        have hcs : '\n' ∉ cs := fun hx => ha (by simp [hx])
        simp only [splitNl, hc, if_false, ihc hcs]
    | cons b bs =>
      have hrest : splitNl (joinNl (b :: bs)) = b :: bs :=
        ih (by simp) (fun l hl => h l (by simp [hl]))
      simp only [joinNl]
      clear ih hne h
      induction a with
      | nil => simp [splitNl, hrest]
      | cons c cs ihc =>
        have hc : c ≠ '\n' := by intro hc; exact ha (by simp [hc])
        have hcs : '\n' ∉ cs := fun hx => ha (by simp [hx])
        have hrec := ihc hcs
        simp only [List.cons_append, splitNl, hc, if_false]
        rw [show cs.append ('\n' :: joinNl (b :: bs)) = cs ++ '\n' :: joinNl (b :: bs) from rfl,
          hrec]

/-! ## Small Python primitives -/

/-- Python whitespace stripped by `str.strip()`. -/
def pyWs (c : Char) : Bool :=
  c = ' ' || c = '\t' || c = '\n' || c = '\r' || c = '\x0b' || c = '\x0c'

/-- Python `str.strip()`. -/
def pyStrip (l : List Char) : List Char :=
  ((l.dropWhile pyWs).reverse.dropWhile pyWs).reverse

def isAsciiDigit (c : Char) : Bool := '0' ≤ c && c ≤ '9'

/-- No two consecutive underscores. -/
def noDoubleUnderscore : List Char → Bool
  | '_' :: '_' :: _ => false
  | _ :: rest => noDoubleUnderscore rest
  | [] => true

/-- Valid digit run for Python `int()`: nonempty, digits with single
underscores strictly between digits. -/
def digitsOk (l : List Char) : Bool :=
  !l.isEmpty && l.all (fun c => isAsciiDigit c || c = '_') &&
  (match l.head? with | some c => isAsciiDigit c | none => false) &&
  (match l.getLast? with | some c => isAsciiDigit c | none => false) &&
  noDoubleUnderscore l

def digitsVal (l : List Char) : Nat :=
  l.foldl (fun acc c => if c = '_' then acc else acc * 10 + (c.toNat - 48)) 0

/-- Python `int(s)` on a decimal string: `none` models a raised ValueError. -/
def parsePyInt (raw : List Char) : Option Int :=
  let l := pyStrip raw
  match l with
  | [] => none
  | c :: rest =>
    let sd : Int × List Char :=
      if c = '-' then (-1, rest) else if c = '+' then (1, rest) else (1, c :: rest)
    if digitsOk sd.2 then some (sd.1 * (digitsVal sd.2 : Int)) else none

/-- Fuel-driven worker for decimal printing (structural recursion; fuel
`n + 1` always suffices since the argument shrinks by a factor 10). -/
def natCharsAux : Nat → Nat → List Char
  | 0, _ => []
  | fuel + 1, n =>
    if n < 10 then [Char.ofNat (48 + n)]
    else natCharsAux fuel (n / 10) ++ [Char.ofNat (48 + n % 10)]

/-- Decimal digits of a natural number, as Python `str(n)`. -/
def natChars (n : Nat) : List Char := natCharsAux (n + 1) n

/-- Python `str(i)` for an int. -/
def intChars (i : Int) : List Char :=
  if i < 0 then '-' :: natChars i.natAbs else natChars i.toNat

/-- Python `round(num/den)` for nonnegative operands: half-to-even. -/
def roundHalfEven (num den : Nat) : Nat :=
  let q := num / den
  let r := num % den
  if 2 * r < den then q
  else if den < 2 * r then q + 1
  else if q % 2 = 0 then q else q + 1

/-- Python hex digit value for `int(s, 16)`. -/
def hexDigitVal (c : Char) : Option Nat :=
  if '0' ≤ c ∧ c ≤ '9' then some (c.toNat - 48)
  else if 'a' ≤ c ∧ c ≤ 'f' then some (c.toNat - 87)
  else if 'A' ≤ c ∧ c ≤ 'F' then some (c.toNat - 55)
  else none

/-- Python `int(two_hex_chars, 16)`; `none` models a raised ValueError. -/
def hexPair (a b : Char) : Option Nat := do
  let x ← hexDigitVal a
  let y ← hexDigitVal b
  pure (16 * x + y)

/-! ## Color resolution (`renderer.py`) -/

/-- `ColorProfile` from `renderer.py`. -/
inductive ColorProfile where
  | trueColor
  | ansi256
  | ansi
  | ascii
deriving DecidableEq, Repr

/-- `_ansi16_fg_escape` from `renderer.py`. -/
def ansi16FgEscape (idx : Int) : List Char :=
  if idx < 8 then pys "\x1b[" ++ intChars (30 + idx) ++ pys "m"
  else pys "\x1b[" ++ intChars (90 + idx - 8) ++ pys "m"

/-- `_rgb_to_ansi256` from `renderer.py`.  The two float expressions
`(r - 8) / 247 * 24` and `r / 255 * 5` are embedded as exact rational
rounding; no argument in 0..255 comes close enough to a rounding
boundary for double rounding error to change the result, and exact ties
are impossible, so the embedding agrees with the float computation. -/
def rgbToAnsi256 (r g b : Nat) : Nat :=
  if r = g ∧ g = b then
    if r < 8 then 16
    else if r > 248 then 231
    else roundHalfEven ((r - 8) * 24) 247 + 232
  else
    16 + 36 * roundHalfEven (r * 5) 255 + 6 * roundHalfEven (g * 5) 255 +
      roundHalfEven (b * 5) 255

/-- `_ansi256_to_ansi16` from `renderer.py`. -/
def ansi256ToAnsi16 (idx : Int) : Int :=
  if idx < 16 then idx
  else if idx ≥ 232 then
    let level := idx - 232
    if level < 6 then 0
    else if level < 12 then 8
    else if level < 18 then 7
    else 15
  else
    let i := idx - 16
    let bI := i.emod 6
    let gI := (i.fdiv 6).emod 6
    let rI := i.fdiv 36
    let r := rI * 51
    let g := gI * 51
    let b := bI * 51
    let bright := r + g + b > 382
    if r > g ∧ r > b then (if bright then 9 else 1)
    else if g > r ∧ g > b then (if bright then 10 else 2)
    else if b > r ∧ b > g then (if bright then 12 else 4)
    else if r > b ∧ g > b then (if bright then 11 else 3)
    else if r > g ∧ b > g then (if bright then 13 else 5)
    else if g > r ∧ b > r then (if bright then 14 else 6)
    else (if bright then 15 else 0)

/-- Channel sum `r + g + b` of the RGB triple reconstructed from a
256-palette cube index, exactly as `_ansi256_to_ansi16` computes it. -/
def ansi256CubeChannelSum (idx : Int) : Int :=
  let i := idx - 16
  51 * (i.fdiv 36) + 51 * ((i.fdiv 6).emod 6) + 51 * (i.emod 6)

/-- `Renderer._resolve_color_string` from `renderer.py`, as a function of
the (already detected) color profile.  `none` models a raised exception
(invalid hex digits reach `int(_, 16)` uncaught). -/
def resolveColorStringPure (profile : ColorProfile) (raw : List Char) :
    Option (List Char) :=
  if profile = .ascii then some []
  else
    let s := pyStrip raw
    if s.head? = some '#' then
      let hexVal := s.dropWhile (· = '#')
      match hexVal with
      | [r1, r2, g1, g2, b1, b2] =>
        match hexPair r1 r2, hexPair g1 g2, hexPair b1 b2 with
        | some r, some g, some b =>
          if profile = .trueColor then
            some (pys "\x1b[38;2;" ++ natChars r ++ pys ";" ++ natChars g ++
              pys ";" ++ natChars b ++ pys "m")
          else
            let idx := rgbToAnsi256 r g b
            if profile = .ansi256 then
              some (pys "\x1b[38;5;" ++ natChars idx ++ pys "m")
            else some (ansi16FgEscape (ansi256ToAnsi16 (idx : Int)))
        | _, _, _ => none
      | _ => some []
    else
      match parsePyInt s with
      | none => some []
      | some idx =>
        if idx < 0 then some []
        else if idx < 16 then some (ansi16FgEscape idx)
        else if profile = .ansi then some (ansi16FgEscape (ansi256ToAnsi16 idx))
        else some (pys "\x1b[38;5;" ++ intChars idx ++ pys "m")

/-! ## SGR parameter manipulation (`style.py`) -/

/-- Python `sep.join(parts)`. -/
def joinSep (sep : List Char) : List (List Char) → List Char
  | [] => []
  | [x] => x
  | x :: xs => x ++ sep ++ joinSep sep xs

/-- `_extract_sgr_params` from `style.py`: the params of a leading SGR
escape (digits and semicolons then a final m), split on semicolons with
empty pieces dropped. -/
def extractSgrParams (l : List Char) : List (List Char) :=
  match l with
  | c1 :: c2 :: rest =>
    if c1 = escChar ∧ c2 = '[' then
      let body := rest.takeWhile (fun c => isAsciiDigit c || c = ';')
      let after := rest.dropWhile (fun c => isAsciiDigit c || c = ';')
      match after with
      | 'm' :: _ => (body.splitOn ';').filter (· ≠ [])
      | _ => []
    else []
  | _ => []

/-- The parameter rewriting loop of `_fg_to_bg_escape`: `38` followed by
at least one more parameter becomes `48`; values 30..37 and 90..97 get
10 added; everything else is kept. -/
def bgLoop : List (List Char) → List (List Char)
  | [] => []
  | p :: rest =>
    if p = pys "38" ∧ rest ≠ [] then pys "48" :: bgLoop rest
    else
      match parsePyInt p with
      | none => p :: bgLoop rest
      | some n =>
        if 30 ≤ n ∧ n ≤ 37 then intChars (n + 10) :: bgLoop rest
        else if 90 ≤ n ∧ n ≤ 97 then intChars (n + 10) :: bgLoop rest
        else p :: bgLoop rest

/-- `_fg_to_bg_escape` from `style.py`. -/
def fgToBgEscape (fg : List Char) : List Char :=
  if fg = [] then []
  else
    let params := extractSgrParams fg
    if params = [] then []
    else pys "\x1b[" ++ joinSep (pys ";") (bgLoop params) ++ pys "m"

/-- Build an SGR escape from a parameter list, as the inline
`"\x1b[" + ";".join(params) + "m" if params else ""` in `style.py`. -/
def sgrOf (params : List (List Char)) : List Char :=
  if params = [] then [] else pys "\x1b[" ++ joinSep (pys ";") params ++ pys "m"

/-! ## Table data sources (`table/rows.py`) -/

/-- Python list indexing semantics: negative indices count from the end;
`none` models a raised IndexError. -/
def pyGet {α : Type} (l : List α) (i : Int) : Option α :=
  let j : Int := if i < 0 then (l.length : Int) + i else i
  if 0 ≤ j ∧ j < (l.length : Int) then l.get? j.toNat else none

/-- `StringData.at` from `table/rows.py` on the stored row matrix.
Returns `none` when the Python code would raise an IndexError. -/
def StringData.at (rows : List (List String)) (row col : Int) :
    Option String :=
  if row ≥ (rows.length : Int) then some ""
  else
    match pyGet rows row with
    | none => none
    | some r =>
      if col ≥ (r.length : Int) then some ""
      else
        match pyGet r col with
        | none => none
        | some cell => some cell

/-- The scanning loop of `Filter.at`: iterate over the underlying row
indices in order with a counter `j` of predicate-passing rows seen. -/
def filterAtGo (rows : List (List String)) (pred : Nat → Bool)
    (row col : Int) : List Nat → Int → Option String
  | [], _ => some ""
  | i :: is, j =>
    if pred i then
      if j = row then StringData.at rows (i : Int) col
      else filterAtGo rows pred row col is (j + 1)
    else filterAtGo rows pred row col is j

/-- `Filter.at` from `table/rows.py`, specialised to a `StringData`
source: the `for i in range(self._data.rows())` scan counting
predicate-passing rows, returning the underlying cell whose filtered
position equals `row`, or the empty string when the scan runs out. -/
def Filter.at (rows : List (List String)) (pred : Nat → Bool)
    (row col : Int) : Option String :=
  filterAtGo rows pred row col (List.range rows.length) 0

/-- `Filter.rows` from `table/rows.py` (count of predicate-passing rows). -/
def Filter.rowCount (rows : List (List String)) (pred : Nat → Bool) : Nat :=
  ((List.range rows.length).filter pred).length

theorem pyGet_nonneg {α : Type} (l : List α) (i : Int) (h0 : 0 ≤ i)
    (h1 : i < (l.length : Int)) : pyGet l i = l.get? i.toNat := by
  unfold pyGet
  have : ¬i < 0 := by omega
  simp only [this, if_false]
  simp [h0, h1]

theorem filterAtGo_out_of_range (rows : List (List String)) (pred : Nat → Bool)
    (row col : Int) :
    ∀ (is : List Nat) (j : Int),
      (row < j ∨ j + ((is.filter pred).length : Int) ≤ row) →
      filterAtGo rows pred row col is j = some "" := by
  intro is
  induction is with
  | nil => intro j _; rfl
  | cons i rest ih =>
    intro j hj
    simp only [filterAtGo]
    by_cases hp : pred i
    · simp only [hp, if_true]
      have hne : ¬j = row := by
        rcases hj with h | h
        · omega
        · simp [List.filter_cons, hp] at h
          omega
      simp only [hne, if_false]
      apply ih
      rcases hj with h | h
      · left; omega
      · right
        simp [List.filter_cons, hp] at h
        push_cast
        omega
    · simp only [hp, if_false]
      apply ih
      rcases hj with h | h
      · left; omega
      · right
        simp [List.filter_cons, hp] at h
        push_cast at h ⊢
        omega

/-- CSS shorthand expansion `_expand_sides` from `style.py`: `none`
models the raised ValueError for 0 or more than 4 values. -/
def expandSides : List Int → Option (Int × Int × Int × Int)
  | [a] => some (a, a, a, a)
  | [a, b] => some (a, b, a, b)
  | [a, b, c] => some (a, b, c, b)
  | [a, b, c, d] => some (a, b, c, d)
  | _ => none

/-! ## Table column-width optimizer (`table/resizing.py`)

The expand algorithm operates purely on the per-column integer
statistics of `_ResizerColumn` (content widths are consumed only while
building these statistics), so the embedding takes the column list as
input.  The `rows` list held by `_ResizerColumn` is not consulted by
the width arithmetic and is omitted. -/

/-- `_ResizerColumn` statistics from `table/resizing.py`. -/
structure ResizerColumn where
  index : Nat
  min : Nat
  max : Nat
  median : Nat
  xPadding : Nat
  fixedWidth : Nat
deriving DecidableEq, Repr

/-- `Resizer._x_padding_for_col`. -/
def xPaddingForCol (cols : List ResizerColumn) (j : Nat) : Nat :=
  match cols.get? j with
  | some c => c.xPadding
  | none => 0

/-- `Resizer._max_column_widths`. -/
def maxColumnWidths (cols : List ResizerColumn) : List Nat :=
  cols.map (fun c =>
    if c.fixedWidth > 0 then c.fixedWidth else c.max + xPaddingForCol cols c.index)

/-- `Resizer._total_horizontal_border` (`border_column` contributes one
separator per column plus one extra outer border). -/
def totalHorizontalBorder (cols : List ResizerColumn) (borderColumn : Bool) : Nat :=
  cols.length * (if borderColumn then 1 else 0) + (if borderColumn then 1 else 0)

/-- `cols[j].fixed_width` as consulted by the scan loops. -/
def colFix (cols : List ResizerColumn) (j : Nat) : Nat :=
  ((cols.get? j).map ResizerColumn.fixedWidth).getD 0

/-- The scan of `_expand_table_width` selecting the shortest column:
accumulator `(shorter_idx, shorter_width)`, skipping any column whose
current width equals its `fixed_width` field. -/
def expandScan (fix : Nat → Nat) : List (Nat × Nat) → Nat × Nat → Nat × Nat
  | [], acc => acc
  | (j, w) :: rest, acc =>
    if w = fix j then expandScan fix rest acc
    else if w < acc.2 then expandScan fix rest (j, w)
    else expandScan fix rest acc

/-- `shorter_idx` after the scan (`_BIG = 2**31 - 1` start). -/
def expandChoose (cols : List ResizerColumn) (ws : List Nat) : Nat :=
  (expandScan (colFix cols) ws.enum (0, 2 ^ 31 - 1)).1

/-- `col_widths[i] += 1`. -/
def incrAt (ws : List Nat) (i : Nat) : List Nat :=
  ws.set i (ws.getD i 0 + 1)

/-- The `while` loop of `_expand_table_width` (fuel-driven; the fuel
only makes the recursion structural and `table_width + 1` always
suffices since each pass adds one cell).  `none` models the IndexError
Python raises when incrementing into an empty width list (and,
unreachably, fuel exhaustion). -/
def expandLoopAux (cols : List ResizerColumn) (borderColumn : Bool)
    (tableWidth : Nat) : Nat → List Nat → Option (List Nat)
  | 0, _ => none
  | fuel + 1, ws =>
    if tableWidth ≤ ws.sum + totalHorizontalBorder cols borderColumn then some ws
    else if ws = [] then none
    else expandLoopAux cols borderColumn tableWidth fuel (incrAt ws (expandChoose cols ws))

/-- `Resizer._expand_table_width` from `table/resizing.py` (the column
widths; row heights are computed separately and not claimed here). -/
def expandTableWidth (cols : List ResizerColumn) (borderColumn : Bool)
    (tableWidth : Nat) : Option (List Nat) :=
  expandLoopAux cols borderColumn tableWidth (tableWidth + 1) (maxColumnWidths cols)

theorem expandScan_best_le (fix : Nat → Nat) :
    ∀ (l : List (Nat × Nat)) (acc : Nat × Nat),
      (expandScan fix l acc).2 ≤ acc.2 ∧
      ∀ jw ∈ l, jw.2 ≠ fix jw.1 → (expandScan fix l acc).2 ≤ jw.2 := by
  intro l
  induction l with
  | nil => intro acc; exact ⟨le_rfl, by simp⟩
  | cons hd rest ih =>
    intro acc
    obtain ⟨j, w⟩ := hd
    simp only [expandScan]
    by_cases h1 : w = fix j
    · simp only [h1, if_true]
      refine ⟨(ih acc).1, ?_⟩
      intro jw hm hne
      rcases List.mem_cons.mp hm with rfl | hm
      · simp at hne
      · exact (ih acc).2 jw hm hne
    · simp only [h1, if_false]
      by_cases h2 : w < acc.2
      · simp only [h2, if_true]
        refine ⟨le_trans (ih (j, w)).1 (le_of_lt h2), ?_⟩
        intro jw hm hne
        rcases List.mem_cons.mp hm with rfl | hm
        · exact (ih (j, w)).1
        · exact (ih (j, w)).2 jw hm hne
      · simp only [h2, if_false]
        refine ⟨(ih acc).1, ?_⟩
        intro jw hm hne
        rcases List.mem_cons.mp hm with rfl | hm
        · exact le_trans (ih acc).1 (by omega)
        · exact (ih acc).2 jw hm hne

theorem expandScan_mem (fix : Nat → Nat) :
    ∀ (l : List (Nat × Nat)) (acc : Nat × Nat),
      expandScan fix l acc = acc ∨
      (expandScan fix l acc ∈ l ∧
        (expandScan fix l acc).2 ≠ fix (expandScan fix l acc).1) := by
  intro l
  induction l with
  | nil => intro acc; left; rfl
  | cons hd rest ih =>
    intro acc
    obtain ⟨j, w⟩ := hd
    simp only [expandScan]
    by_cases h1 : w = fix j
    · simp only [h1, if_true]
      rcases ih acc with h | h
      · left; exact h
      · right; exact ⟨List.mem_cons_of_mem _ h.1, h.2⟩
    · simp only [h1, if_false]
      by_cases h2 : w < acc.2
      · simp only [h2, if_true]
        rcases ih (j, w) with h | h
        · right
          refine ⟨?_, ?_⟩
          · rw [h]; exact List.mem_cons_self _ _
          · rw [h]; exact h1
        · right; exact ⟨List.mem_cons_of_mem _ h.1, h.2⟩
      · simp only [h2, if_false]
        rcases ih acc with h | h
        · left; exact h
        · right; exact ⟨List.mem_cons_of_mem _ h.1, h.2⟩

theorem sum_incrAt (ws : List Nat) (i : Nat) (h : i < ws.length) :
    (incrAt ws i).sum = ws.sum + 1 := by
  induction ws generalizing i with
  | nil => simp at h
  | cons a rest ih =>
    cases i with
    | zero => simp [incrAt, List.sum_cons]; omega
    | succ n =>
      simp only [incrAt, List.set_cons_succ, List.sum_cons]
      have := ih n (by simpa using Nat.lt_of_succ_lt_succ h)
      simp only [incrAt] at this
      simp only [List.getD_cons_succ]
      omega

theorem length_incrAt (ws : List Nat) (i : Nat) :
    (incrAt ws i).length = ws.length := by
  simp [incrAt]

theorem getD_incrAt_self (ws : List Nat) (i : Nat) (h : i < ws.length) :
    (incrAt ws i).getD i 0 = ws.getD i 0 + 1 := by
  simp [incrAt, List.getD_eq_getElem?_getD, List.getElem?_set_self, h]

theorem getD_incrAt_other (ws : List Nat) (i j : Nat) (h : i ≠ j) :
    (incrAt ws i).getD j 0 = ws.getD j 0 := by
  simp [incrAt, List.getD_eq_getElem?_getD, List.getElem?_set_ne h]

theorem getD_le_sum (ws : List Nat) (j : Nat) : ws.getD j 0 ≤ ws.sum := by
  induction ws generalizing j with
  | nil => simp
  | cons a rest ih =>
    cases j with
    | zero => simp [List.sum_cons]
    | succ n =>
      simp only [List.getD_cons_succ, List.sum_cons]
      exact le_trans (ih n) (by omega)

theorem maxColumnWidths_length (cols : List ResizerColumn) :
    (maxColumnWidths cols).length = cols.length := by
  simp [maxColumnWidths]

theorem maxColumnWidths_getD_fixed (cols : List ResizerColumn) (j : Nat)
    (hj : j < cols.length) (hfix : colFix cols j ≠ 0) :
    (maxColumnWidths cols).getD j 0 = colFix cols j := by
  have hget : cols.get? j = some cols[j] := by
    rw [List.get?_eq_getElem?, List.getElem?_eq_getElem hj]
  have hcf : colFix cols j = cols[j].fixedWidth := by
    unfold colFix
    rw [hget]
    rfl
  rw [hcf] at hfix ⊢
  unfold maxColumnWidths
  rw [List.getD_eq_getElem?_getD, List.getElem?_map, List.getElem?_eq_getElem hj]
  simp [Nat.pos_of_ne_zero hfix]

/-- The choice made by one expand pass, under the loop invariant: the
selected column is in range, is not fixed, and has positive width. -/
theorem expandChoose_spec (cols : List ResizerColumn) (ws : List Nat) (W : Nat)
    (hBig : W ≤ 2 ^ 31 - 1)
    (hlen : ws.length = cols.length)
    (hsum : ws.sum < W)
    (hfixinv : ∀ j, j < cols.length → colFix cols j ≠ 0 →
      ws.getD j 0 = colFix cols j)
    (helig : ∃ j, j < cols.length ∧ colFix cols j = 0 ∧ 0 < ws.getD j 0) :
    expandChoose cols ws < ws.length ∧
    colFix cols (expandChoose cols ws) = 0 ∧
    0 < ws.getD (expandChoose cols ws) 0 := by
  obtain ⟨js, hjs, hjfix, hjpos⟩ := helig
  have hjlen : js < ws.length := by omega
  have hmem : ((js, ws.getD js 0) : Nat × Nat) ∈ ws.enum := by
    rw [List.mem_enum_iff_getElem?]
    simp only
    rw [List.getElem?_eq_getElem hjlen]
    simp [List.getD_eq_getElem?_getD, List.getElem?_eq_getElem hjlen]
  have hjel : (ws.getD js 0 : Nat) ≠ colFix cols js := by
    rw [hjfix]; omega
  have hwstar : ws.getD js 0 < 2 ^ 31 - 1 := by
    have := getD_le_sum ws js
    omega
  set res := expandScan (colFix cols) ws.enum (0, 2 ^ 31 - 1) with hres
  have hb := (expandScan_best_le (colFix cols) ws.enum (0, 2 ^ 31 - 1)).2
    (js, ws.getD js 0) hmem hjel
  rw [← hres] at hb
  have hlt : res.2 < 2 ^ 31 - 1 := lt_of_le_of_lt hb hwstar
  rcases expandScan_mem (colFix cols) ws.enum (0, 2 ^ 31 - 1) with h | h
  · rw [← hres] at h
    rw [h] at hlt
    exact absurd hlt (lt_irrefl _)
  · rw [← hres] at h
    obtain ⟨hmem2, hne⟩ := h
    rw [List.mem_enum_iff_getElem?] at hmem2
    have hr1 : res.1 < ws.length := by
      by_contra hcon
      rw [List.getElem?_eq_none (by omega)] at hmem2
      exact Option.noConfusion hmem2
    have hr2 : ws.getD res.1 0 = res.2 := by
      rw [List.getD_eq_getElem?_getD, hmem2]
      rfl
    have hchoose : expandChoose cols ws = res.1 := by
      unfold expandChoose
      rw [← hres]
    rw [hchoose]
    have hfz : colFix cols res.1 = 0 := by
      by_contra hcon
      have := hfixinv res.1 (by omega) hcon
      rw [hr2] at this
      exact hne this
    refine ⟨hr1, hfz, ?_⟩
    rw [hr2]
    rcases Nat.eq_zero_or_pos res.2 with hz | hp
    · exfalso
      apply hne
      rw [hz, hfz]
    · exact hp

/-- Full specification of the expand loop under the invariant. -/
theorem expandLoopAux_spec (cols : List ResizerColumn) (bc : Bool) (W : Nat)
    (hBig : W ≤ 2 ^ 31 - 1) :
    ∀ (fuel : Nat) (ws : List Nat),
      ws.length = cols.length →
      ws.sum + totalHorizontalBorder cols bc ≤ W →
      W - (ws.sum + totalHorizontalBorder cols bc) < fuel →
      (∀ j, j < cols.length → colFix cols j ≠ 0 →
        ws.getD j 0 = colFix cols j) →
      (∃ j, j < cols.length ∧ colFix cols j = 0 ∧ 0 < ws.getD j 0) →
      ∃ final, expandLoopAux cols bc W fuel ws = some final ∧
        final.sum + totalHorizontalBorder cols bc = W ∧
        final.length = ws.length ∧
        (∀ j, j < cols.length → colFix cols j ≠ 0 →
          final.getD j 0 = ws.getD j 0) ∧
        (∀ j, j < cols.length → colFix cols j = 0 → ws.getD j 0 = 0 →
          final.getD j 0 = 0) := by
  intro fuel
  induction fuel with
  | zero => intro ws _ _ hfuel _ _; omega
  | succ f ih =>
    intro ws hlen hsum hfuel hfixinv helig
    by_cases hdone : W ≤ ws.sum + totalHorizontalBorder cols bc
    · refine ⟨ws, ?_, by omega, rfl, fun j _ _ => rfl, fun j _ _ h => h⟩
      simp [expandLoopAux, hdone]
    · have hlt : ws.sum + totalHorizontalBorder cols bc < W := by omega
      have hne : ws ≠ [] := by
        obtain ⟨js, hjs, _, _⟩ := helig
        intro hcon
        rw [hcon] at hlen
        simp at hlen
        omega
      have hch := expandChoose_spec cols ws W hBig hlen (by omega) hfixinv helig
      obtain ⟨hi1, hi2, hi3⟩ := hch
      set i := expandChoose cols ws with hidef
      have hstep := ih (incrAt ws i)
        (by rw [length_incrAt]; exact hlen)
        (by rw [sum_incrAt ws i hi1]; omega)
        (by rw [sum_incrAt ws i hi1]; omega)
        (by
          intro j hj hfix
          rw [getD_incrAt_other ws i j (by intro hij; rw [hij] at hi2; exact hfix hi2)]
          exact hfixinv j hj hfix)
        (by
          obtain ⟨js, hjs, hjfix, hjpos⟩ := helig
          by_cases hij : i = js
          · exact ⟨js, hjs, hjfix, by rw [← hij, getD_incrAt_self ws i hi1]; omega⟩
          · exact ⟨js, hjs, hjfix, by rw [getD_incrAt_other ws i js hij]; exact hjpos⟩)
      obtain ⟨final, hfin, hfsum, hflen, hffix, hfzero⟩ := hstep
      refine ⟨final, ?_, hfsum, by rw [hflen, length_incrAt], ?_, ?_⟩
      · show expandLoopAux cols bc W (f + 1) ws = some final
        simp only [expandLoopAux]
        rw [if_neg hdone, if_neg hne, ← hidef]
        exact hfin
      · intro j hj hfix
        rw [hffix j hj hfix,
          getD_incrAt_other ws i j (by intro hij; rw [hij] at hi2; exact hfix hi2)]
      · intro j hj hfix hzero
        apply hfzero j hj hfix
        have hij : i ≠ j := by
          intro hij
          rw [hij] at hi3
          omega
        rw [getD_incrAt_other ws i j hij]
        exact hzero

end Lipgloss

namespace Lipgloss

/-! ## Render pipeline text helpers (`style.py`) -/

/-- Python `" " * n` and friends (negative counts give the empty string). -/
def pyRep (n : Int) (c : Char) : List Char := List.replicate n.toNat c

/-- Python `max(iterable, default=0)` over visible widths. -/
def listMaxNat (l : List Nat) : Nat := l.foldr max 0

/-- Python `str.count("\n")`. -/
def countNl (l : List Char) : Nat := l.count '\n'

/-- `_maybe_convert_tabs` from `style.py`: width -1 keeps tabs, width 0
removes them, otherwise each tab becomes `tab_width` spaces (a negative
width other than -1 also removes them, like Python replication). -/
def maybeConvertTabs (s : List Char) (tabWidth : Int) (explicit : Bool) :
    List Char :=
  let tw := if explicit then tabWidth else 4
  if tw = -1 then s
  else s.flatMap (fun c => if c = '\t' then pyRep tw ' ' else [c])

/-- Python `str.replace("\r\n", "\n")` (leftmost, non-overlapping). -/
def replaceCRLF : List Char → List Char
  | [] => []
  | '\r' :: '\n' :: rest => '\n' :: replaceCRLF rest
  | c :: rest => c :: replaceCRLF rest

/-- The word-accumulation loop inside `_word_wrap`: `current` starts
empty, words joined while they fit, flushed otherwise; an over-long
single word is emitted intact. -/
def wrapWords (width : Int) : List (List Char) → List Char → List (List Char)
  | [], current => [current]
  | w :: ws, current =>
    if current = [] then wrapWords width ws w
    else if (visWidth current : Int) + 1 + (visWidth w : Int) ≤ width then
      wrapWords width ws (current ++ ' ' :: w)
    else current :: wrapWords width ws w

/-- `_word_wrap` from `style.py`: lines that fit pass through; longer
lines are split at spaces greedily. -/
def wordWrap (s : List Char) (width : Int) : List Char :=
  if width ≤ 0 then s
  else
    joinNl ((splitNl s).flatMap (fun line =>
      if (visWidth line : Int) ≤ width then [line]
      else wrapWords width (line.splitOn ' ') []))

/-- Fuel-driven worker for `_truncate_ansi` (fuel = input length always
suffices; each step consumes at least one character).  The `break` of
the Python loop discards the rest of the line. -/
def truncAux : Nat → List Char → Nat → Int → List Char
  | 0, _, _, _ => []
  | fuel + 1, l, visible, maxW =>
    match l with
    | [] => []
    | c :: rest =>
      if c = escChar then
        match parseEsc rest with
        | some (m, r) => (escChar :: m) ++ truncAux fuel r visible maxW
        | none =>
          if ((visible : Int) + 1 > maxW) then []
          else c :: truncAux fuel rest (visible + 1) maxW
      else if ((visible : Int) + 1 > maxW) then []
      else c :: truncAux fuel rest (visible + 1) maxW

/-- `_truncate_ansi` from `style.py`: clip a line to `max_width` visible
cells, keeping (leading) ANSI escapes intact. -/
def truncateAnsi (line : List Char) (maxW : Int) : List Char :=
  if (visWidth line : Int) ≤ maxW then line
  else truncAux line.length line 0 maxW

/-- The float constant 0.5, as the reduced rational 1/2 (written with
an explicit numerator and denominator so that kernel evaluation works;
`ratHalf_eq` identifies it with `1 / 2`). -/
def ratHalf : ℚ := ⟨1, 2, by decide, by decide⟩

theorem ratHalf_eq : ratHalf = 1 / 2 := by
  rw [show (1 / 2 : ℚ) = Rat.divInt 1 2 by rw [Rat.divInt_eq_div]; norm_num]
  rfl

/-- The rational 1/4, used as a concrete non-half alignment fraction in
witnesses. -/
def ratQuarter : ℚ := ⟨1, 4, by decide, by decide⟩

theorem ratQuarter_eq : ratQuarter = 1 / 4 := by
  rw [show (1 / 4 : ℚ) = Rat.divInt 1 4 by rw [Rat.divInt_eq_div]; norm_num]
  rfl

/-- `_align_text_horizontal` from `style.py`.  `pos` is the alignment
fraction; only exact 1.0 (right) and exact 0.5 (center) get their own
branches, everything else falls to the left branch. -/
def alignTextHorizontal (s : List Char) (pos : ℚ) (width : Int)
    (styleWs : Option (List Char → List Char)) : List Char :=
  let lines := splitNl s
  let widest := listMaxNat (lines.map visWidth)
  joinNl (lines.map (fun line =>
    let lineW := visWidth line
    let short0 : Int := (widest : Int) - (lineW : Int)
    let short : Int := short0 + max 0 (width - (short0 + (lineW : Int)))
    if short ≤ 0 then line
    else
      let posC := max 0 (min 1 pos)
      if posC = 1 then
        let sp := pyRep short ' '
        let sp := match styleWs with | some f => f sp | none => sp
        sp ++ line
      else if posC = ratHalf then
        let leftN := short.fdiv 2
        let rightN := leftN + short.emod 2
        let lsp := pyRep leftN ' '
        let rsp := pyRep rightN ' '
        let lsp := match styleWs with | some f => f lsp | none => lsp
        let rsp := match styleWs with | some f => f rsp | none => rsp
        lsp ++ line ++ rsp
      else
        let sp := pyRep short ' '
        let sp := match styleWs with | some f => f sp | none => sp
        line ++ sp))

/-- `_align_text_vertical` from `style.py`. -/
def alignTextVertical (s : List Char) (pos : ℚ) (height : Int) : List Char :=
  let strHeight : Int := (countNl s : Int) + 1
  if height ≤ strHeight then s
  else
    let posC := max 0 (min 1 pos)
    if posC = 0 then s ++ pyRep (height - strHeight) '\n'
    else if posC = 1 then pyRep (height - strHeight) '\n' ++ s
    else
      let topPad := (height - strHeight).fdiv 2
      let bottomPad0 := (height - strHeight).fdiv 2
      let bottomPad :=
        if strHeight + topPad + bottomPad0 < height then bottomPad0 + 1
        else bottomPad0
      pyRep topPad '\n' ++ s ++ pyRep bottomPad '\n'

/-- `_render_horizontal_edge` from `style.py`.  With the one-cell
character-width model the while loop emits exactly
`width - visible_width(left)` glyphs (clamped at zero), cycling through
the middle string's characters. -/
def renderHorizontalEdge (left mid right : List Char) (width : Nat) :
    List Char :=
  let mid := if mid = [] then [' '] else mid
  let count := width - visWidth left
  left ++ ((List.range count).map (fun t => mid.getD (t % mid.length) ' ')) ++ right

/-- `style_str` / `style_ws` / `style_sp` from `Style.render`: wrap in
the SGR sequence and a reset when the sequence is nonempty. -/
def applySgr (sgr : List Char) (s : List Char) : List Char :=
  if sgr = [] then s else sgr ++ s ++ pys "\x1b[0m"

/-- The `_build_sgr` parameter assembly inside `Style.render`. -/
def buildSgrParams (bold italic underline strikethrough reverse blink
    faint : Bool) (fg bg : List Char) : List (List Char) :=
  (if bold then [pys "1"] else []) ++
  (if faint then [pys "2"] else []) ++
  (if italic then [pys "3"] else []) ++
  (if underline then [pys "4"] else []) ++
  (if blink then [pys "5"] else []) ++
  (if reverse then [pys "7"] else []) ++
  (if strikethrough then [pys "9"] else []) ++
  (if fg ≠ [] then extractSgrParams fg else []) ++
  (if bg ≠ [] then extractSgrParams (fgToBgEscape bg) else [])

/-! ## Renderer state and color descriptors (`renderer.py`, `color.py`) -/

/-- `Renderer` cache state.  `detectedProfile` stands for the value
`_detect_color_profile` would compute from the ambient environment;
`_detect_dark_background` always returns True in the source. -/
structure Renderer where
  cachedProfile : Option ColorProfile
  cachedDark : Option Bool
  detectedProfile : ColorProfile
deriving Repr

/-- `Renderer.color_profile`: lazily detect and cache. -/
def Renderer.colorProfileSt (r : Renderer) : ColorProfile × Renderer :=
  match r.cachedProfile with
  | some p => (p, r)
  | none => (r.detectedProfile, { r with cachedProfile := some r.detectedProfile })

/-- `Renderer.has_dark_background`: lazily detect (always True) and cache. -/
def Renderer.hasDarkBackgroundSt (r : Renderer) : Bool × Renderer :=
  match r.cachedDark with
  | some b => (b, r)
  | none => (true, { r with cachedDark := some true })

/-- `Renderer._resolve_color_string` (the profile is fetched once at the
top, possibly caching the detection). -/
def Renderer.resolveColorStringSt (r : Renderer) (s : List Char) :
    Option (List Char) × Renderer :=
  let pr := r.colorProfileSt
  (resolveColorStringPure pr.1 s, pr.2)

/-- The `TerminalColor` variants of `color.py`.  `completeAdaptive`
carries the two `CompleteColor` triples flattened. -/
inductive TerminalColor where
  | noColor
  | color (s : List Char)
  | ansiColor (n : Int)
  | adaptive (light dark : List Char)
  | complete (trueColor ansi256 ansi : List Char)
  | completeAdaptive (lightTC lightA256 lightA darkTC darkA256 darkA : List Char)

/-- `CompleteColor.resolve`. -/
def resolveCompleteSt (tc a256 a : List Char) (r : Renderer) :
    Option (List Char) × Renderer :=
  let pr := r.colorProfileSt
  match pr.1 with
  | .trueColor => pr.2.resolveColorStringSt tc
  | .ansi256 => pr.2.resolveColorStringSt a256
  | .ansi => pr.2.resolveColorStringSt a
  | .ascii => (some [], pr.2)

/-- `resolve` for each color variant (`color.py`). -/
def TerminalColor.resolveSt : TerminalColor → Renderer →
    Option (List Char) × Renderer
  | .noColor, r => (some [], r)
  | .color s, r => r.resolveColorStringSt s
  | .ansiColor n, r => r.resolveColorStringSt (intChars n)
  | .adaptive light dark, r =>
    let dk := r.hasDarkBackgroundSt
    dk.2.resolveColorStringSt (if dk.1 then dark else light)
  | .complete tc a256 a, r => resolveCompleteSt tc a256 a r
  | .completeAdaptive ltc la256 la dtc da256 da, r =>
    let dk := r.hasDarkBackgroundSt
    if dk.1 then resolveCompleteSt dtc da256 da dk.2
    else resolveCompleteSt ltc la256 la dk.2

/-! ## Style (`style.py`, `borders.py`) -/

/-- `Border` from `borders.py` (13 glyph strings). -/
structure BorderT where
  top : List Char
  bottom : List Char
  left : List Char
  right : List Char
  topLeft : List Char
  topRight : List Char
  bottomLeft : List Char
  bottomRight : List Char
  middleLeft : List Char
  middleRight : List Char
  middle : List Char
  middleTop : List Char
  middleBottom : List Char

/-- The values stored in the `Style._props` dict. -/
inductive PropValue where
  | pBool (b : Bool)
  | pInt (n : Int)
  | pPos (q : ℚ)
  | pColor (c : TerminalColor)
  | pBorder (b : BorderT)
  | pTransform (f : List Char → List Char)

/-- Python dict get by key (keys are unique; first match). -/
def dictGet : List (String × PropValue) → String → Option PropValue
  | [], _ => none
  | (k1, v) :: rest, k => if k1 = k then some v else dictGet rest k

/-- Python dict set: replace in place, else append (insertion order). -/
def dictSet : List (String × PropValue) → String → PropValue →
    List (String × PropValue)
  | [], k, v => [(k, v)]
  | (k1, v1) :: rest, k, v =>
    if k1 = k then (k, v) :: rest else (k1, v1) :: dictSet rest k v

/-- `Style`: the presence-tracked property dict plus the string attached
via `set_string` (`_value`). -/
structure Style where
  props : List (String × PropValue)
  value : List Char

/-- `Style()` — the empty style. -/
def emptyStyle : Style := ⟨[], []⟩

def Style.get? (s : Style) (k : String) : Option PropValue := dictGet s.props k

/-- `Style._is_set`. -/
def Style.isSet (s : Style) (k : String) : Bool := (s.get? k).isSome

/-- `Style._get` read as a boolean property. -/
def Style.getBool (s : Style) (k : String) (d : Bool) : Bool :=
  match s.get? k with
  | some (.pBool b) => b
  | _ => d

/-- `Style._get` read as an integer property. -/
def Style.getInt (s : Style) (k : String) (d : Int) : Int :=
  match s.get? k with
  | some (.pInt n) => n
  | _ => d

/-- `Style._get` read as an alignment fraction. -/
def Style.getPos (s : Style) (k : String) (d : ℚ) : ℚ :=
  match s.get? k with
  | some (.pPos q) => q
  | _ => d

/-- `Style._get` read as a color (None when unset). -/
def Style.getColor (s : Style) (k : String) : Option TerminalColor :=
  match s.get? k with
  | some (.pColor c) => some c
  | _ => none

/-- `Style._get("border_style")`. -/
def Style.getBorder (s : Style) : Option BorderT :=
  match s.get? "border_style" with
  | some (.pBorder b) => some b
  | _ => none

/-- `Style._get("transform")`. -/
def Style.getTransform (s : Style) : Option (List Char → List Char) :=
  match s.get? "transform" with
  | some (.pTransform f) => some f
  | _ => none

/-- `Style._set` (returns a new style; the receiver is unchanged). -/
def Style.setProp (s : Style) (k : String) (v : PropValue) : Style :=
  { s with props := dictSet s.props k v }

/-- `Style.width`. -/
def Style.width (s : Style) (n : Int) : Style := s.setProp "width" (.pInt n)

/-- `Style.padding_left`. -/
def Style.paddingLeft (s : Style) (n : Int) : Style :=
  s.setProp "padding_left" (.pInt n)

/-- `Style.align_horizontal`. -/
def Style.alignHorizontal (s : Style) (q : ℚ) : Style :=
  s.setProp "align_horizontal" (.pPos q)

/-- `Style.padding` (CSS shorthand; `none` models the ValueError). -/
def Style.padding (s : Style) (values : List Int) : Option Style :=
  (expandSides values).map (fun tr =>
    ((((s.setProp "padding_top" (.pInt tr.1)).setProp
      "padding_right" (.pInt tr.2.1)).setProp
      "padding_bottom" (.pInt tr.2.2.1)).setProp
      "padding_left" (.pInt tr.2.2.2)))

/-- `Style.margin` (CSS shorthand; `none` models the ValueError). -/
def Style.margin (s : Style) (values : List Int) : Option Style :=
  (expandSides values).map (fun tr =>
    ((((s.setProp "margin_top" (.pInt tr.1)).setProp
      "margin_right" (.pInt tr.2.1)).setProp
      "margin_bottom" (.pInt tr.2.2.1)).setProp
      "margin_left" (.pInt tr.2.2.2)))

/-- The per-side getters `get_padding_*` / `get_margin_*`. -/
def Style.getPaddingTop (s : Style) : Int := s.getInt "padding_top" 0
def Style.getPaddingRight (s : Style) : Int := s.getInt "padding_right" 0
def Style.getPaddingBottom (s : Style) : Int := s.getInt "padding_bottom" 0
def Style.getPaddingLeft (s : Style) : Int := s.getInt "padding_left" 0
def Style.getMarginTop (s : Style) : Int := s.getInt "margin_top" 0
def Style.getMarginRight (s : Style) : Int := s.getInt "margin_right" 0
def Style.getMarginBottom (s : Style) : Int := s.getInt "margin_bottom" 0
def Style.getMarginLeft (s : Style) : Int := s.getInt "margin_left" 0

/-- `Style.set_string`. -/
def Style.setString (s : Style) (strings : List (List Char)) : Style :=
  { s with value := joinSep (pys " ") strings }

/-- `Style._NO_INHERIT`. -/
def noInheritKeys : List String :=
  ["margin_top", "margin_right", "margin_bottom", "margin_left",
   "padding_top", "padding_right", "padding_bottom", "padding_left"]

/-- The copy loop of `Style.inherit`: walk the parent's items, skipping
the no-inherit keys and keys already present. -/
def inheritProps (ps : List (String × PropValue)) :
    List (String × PropValue) → List (String × PropValue)
  | [] => ps
  | (k, v) :: rest =>
    if noInheritKeys.contains k then inheritProps ps rest
    else if (dictGet ps k).isSome then inheritProps ps rest
    else inheritProps (dictSet ps k v) rest

/-- `Style.inherit`. -/
def Style.inherit (s parent : Style) : Style :=
  { s with props := inheritProps s.props parent.props }

/-! ## Border and margin application (`style.py`) -/

/-- `_style_border_part` inside `Style._apply_border`. -/
def styleBorderPartSt (ren : Renderer) (txt : List Char)
    (fg bg : Option TerminalColor) : Option (List Char) × Renderer :=
  if txt = [] then (some txt, ren)
  else
    let fgStep := match fg with
      | some c => c.resolveSt ren
      | none => (some [], ren)
    match fgStep with
    | (none, r1) => (none, r1)
    | (some fgE, r1) =>
      let bgStep := match bg with
        | some c => c.resolveSt r1
        | none => (some [], r1)
      match bgStep with
      | (none, r2) => (none, r2)
      | (some bgE, r2) =>
        let params :=
          (if fgE ≠ [] then extractSgrParams fgE else []) ++
          (if bgE ≠ [] then extractSgrParams (fgToBgEscape bgE) else [])
        if params = [] then (some txt, r2)
        else
          (some (pys "\x1b[" ++ joinSep (pys ";") params ++ pys "m" ++ txt ++
            pys "\x1b[0m"), r2)

/-- The per-row loop of `_apply_border`: attach (styled) left/right
border runes, cycling through multi-rune strings. -/
def applyBorderRows (leftRunes rightRunes : List Char)
    (leftFg leftBg rightFg rightBg : Option TerminalColor) :
    Renderer → List (List Char) → Nat → Option (List (List Char)) × Renderer
  | ren, [], _ => (some [], ren)
  | ren, line :: rest, i =>
    let lStep :=
      if leftRunes ≠ [] then
        styleBorderPartSt ren [leftRunes.getD (i % leftRunes.length) ' ']
          leftFg leftBg
      else (some [], ren)
    match lStep with
    | (none, r1) => (none, r1)
    | (some lStr, r1) =>
      let rStep :=
        if rightRunes ≠ [] then
          styleBorderPartSt r1 [rightRunes.getD (i % rightRunes.length) ' ']
            rightFg rightBg
        else (some [], r1)
      match rStep with
      | (none, r2) => (none, r2)
      | (some rStr, r2) =>
        match applyBorderRows leftRunes rightRunes leftFg leftBg rightFg
          rightBg r2 rest (i + 1) with
        | (none, r3) => (none, r3)
        | (some restLines, r3) => (some ((lStr ++ line ++ rStr) :: restLines), r3)

/-- `Style._apply_border`. -/
def Style.applyBorder (s : Style) (ren : Renderer) (txt : List Char) :
    Option (List Char) × Renderer :=
  match s.getBorder with
  | none => (some txt, ren)
  | some b =>
    let anySet := s.isSet "border_top" || s.isSet "border_right" ||
      s.isSet "border_bottom" || s.isSet "border_left"
    let hasTop := if !anySet then true else s.getBool "border_top" false
    let hasRight := if !anySet then true else s.getBool "border_right" false
    let hasBottom := if !anySet then true else s.getBool "border_bottom" false
    let hasLeft := if !anySet then true else s.getBool "border_left" false
    if !(hasTop || hasRight || hasBottom || hasLeft) then (some txt, ren)
    else
      let topFg := s.getColor "border_top_foreground"
      let rightFg := s.getColor "border_right_foreground"
      let bottomFg := s.getColor "border_bottom_foreground"
      let leftFg := s.getColor "border_left_foreground"
      let topBg := s.getColor "border_top_background"
      let rightBg := s.getColor "border_right_background"
      let bottomBg := s.getColor "border_bottom_background"
      let leftBg := s.getColor "border_left_background"
      let lines := splitNl txt
      let contentWidth := listMaxNat (lines.map visWidth) +
        (if hasLeft then 1 else 0)
      let leftChar := if hasLeft then (if b.left = [] then pys " " else b.left)
        else []
      let rightChar := if hasRight then
        (if b.right = [] then pys " " else b.right) else []
      let topLeft := if hasTop ∧ hasLeft then b.topLeft.take 1 else []
      let topRight := if hasTop ∧ hasRight then b.topRight.take 1 else []
      let bottomLeft := if hasBottom ∧ hasLeft then b.bottomLeft.take 1 else []
      let bottomRight := if hasBottom ∧ hasRight then b.bottomRight.take 1
        else []
      let topStep :=
        if hasTop then
          let t := styleBorderPartSt ren
            (renderHorizontalEdge topLeft b.top topRight contentWidth)
            topFg topBg
          (t.1.map (fun x => [x]), t.2)
        else ((some [] : Option (List (List Char))), ren)
      match topStep with
      | (none, r1) => (none, r1)
      | (some topLines, r1) =>
        match applyBorderRows leftChar rightChar leftFg leftBg rightFg
          rightBg r1 lines 0 with
        | (none, r2) => (none, r2)
        | (some rowLines, r2) =>
          let botStep :=
            if hasBottom then
              let t := styleBorderPartSt r2
                (renderHorizontalEdge bottomLeft b.bottom bottomRight
                  contentWidth) bottomFg bottomBg
              (t.1.map (fun x => [x]), t.2)
            else ((some [] : Option (List (List Char))), r2)
          match botStep with
          | (none, r3) => (none, r3)
          | (some botLines, r3) =>
            (some (joinNl (topLines ++ rowLines ++ botLines)), r3)

/-- `style_margin` inside `Style._apply_margins`. -/
def styleMarginSt (s : Style) (ren : Renderer) (txt : List Char) :
    Option (List Char) × Renderer :=
  match s.getColor "margin_background" with
  | none => (some txt, ren)
  | some mb =>
    match mb.resolveSt ren with
    | (none, r1) => (none, r1)
    | (some bgE, r1) =>
      if bgE = [] then (some txt, r1)
      else
        let params := extractSgrParams (fgToBgEscape bgE)
        if params = [] then (some txt, r1)
        else
          (some (pys "\x1b[" ++ joinSep (pys ";") params ++ pys "m" ++ txt ++
            pys "\x1b[0m"), r1)

/-- `Style._apply_margins`. -/
def Style.applyMargins (s : Style) (ren : Renderer) (txt : List Char) :
    Option (List Char) × Renderer :=
  let topM := s.getInt "margin_top" 0
  let rightM := s.getInt "margin_right" 0
  let bottomM := s.getInt "margin_bottom" 0
  let leftM := s.getInt "margin_left" 0
  let lStep :=
    if leftM > 0 then
      let t := styleMarginSt s ren (pyRep leftM ' ')
      (t.1.map (fun pad => joinNl ((splitNl txt).map (fun l => pad ++ l))), t.2)
    else (some txt, ren)
  match lStep with
  | (none, r1) => (none, r1)
  | (some txt1, r1) =>
    let rStep :=
      if rightM > 0 then
        let t := styleMarginSt s r1 (pyRep rightM ' ')
        (t.1.map (fun pad => joinNl ((splitNl txt1).map (fun l => l ++ pad))),
          t.2)
      else (some txt1, r1)
    match rStep with
    | (none, r2) => (none, r2)
    | (some txt2, r2) =>
      if topM > 0 ∨ bottomM > 0 then
        let w := listMaxNat ((splitNl txt2).map visWidth)
        match styleMarginSt s r2 (List.replicate w ' ') with
        | (none, r3) => (none, r3)
        | (some emptyLine, r3) =>
          let txt3 :=
            if topM > 0 then
              (List.replicate topM.toNat (emptyLine ++ ['\n'])).flatten ++ txt2
            else txt2
          let txt4 :=
            if bottomM > 0 then
              txt3 ++ (List.replicate bottomM.toNat ('\n' :: emptyLine)).flatten
            else txt3
          (some txt4, r3)
      else (some txt2, r2)

/-! ## `Style.render` -/

/-- The max-width / max-height truncation at the end of `Style.render`. -/
def renderTruncate (s : Style) (txt : List Char) : List Char :=
  let maxWidth := s.getInt "max_width" 0
  let maxHeight := s.getInt "max_height" 0
  let t1 :=
    if maxWidth > 0 then
      joinNl ((splitNl txt).map (fun l => truncateAnsi l maxWidth))
    else txt
  if maxHeight > 0 then joinNl ((splitNl t1).take maxHeight.toNat) else t1

/-- The pure text pipeline of `Style.render` (`style.py` lines 60-259)
between color resolution and border application: tab conversion, CRLF
normalisation, inline filtering, word wrap, SGR styling, padding,
vertical and horizontal alignment, producing `str12`. -/
def renderBody (s : Style) (fgEsc bgEsc str1 : List Char) : List Char :=
  let bold := s.getBool "bold" false
  let italic := s.getBool "italic" false
  let underline := s.getBool "underline" false
  let strikethrough := s.getBool "strikethrough" false
  let reverse := s.getBool "reverse" false
  let blink := s.getBool "blink" false
  let faint := s.getBool "faint" false
  let underlineSpaces := s.getBool "underline_spaces" false ||
    (underline && s.getBool "underline_spaces" true)
  let strikethroughSpaces := s.getBool "strikethrough_spaces" false ||
    (strikethrough && s.getBool "strikethrough_spaces" true)
  let colorWhitespace := s.getBool "color_whitespace" true
  let inline := s.getBool "inline" false
  let width := s.getInt "width" 0
  let height := s.getInt "height" 0
  let hAlign := s.getPos "align_horizontal" 0
  let vAlign := s.getPos "align_vertical" 0
  let padTop := s.getInt "padding_top" 0
  let padRight := s.getInt "padding_right" 0
  let padBottom := s.getInt "padding_bottom" 0
  let padLeft := s.getInt "padding_left" 0
  let styleWhitespace := reverse
  let useSpaceStyler := (underline && !underlineSpaces) ||
    (strikethrough && !strikethroughSpaces) || underlineSpaces ||
    strikethroughSpaces
  let mainSgr := sgrOf (buildSgrParams bold italic underline
    strikethrough reverse blink faint fgEsc bgEsc)
  let wsSgr := sgrOf (
    (if reverse then [pys "7"] else []) ++
    (if fgEsc ≠ [] && styleWhitespace then extractSgrParams fgEsc
      else []) ++
    (if bgEsc ≠ [] && colorWhitespace then
      extractSgrParams (fgToBgEscape bgEsc) else []))
  let spSgr := sgrOf (
    (if fgEsc ≠ [] then extractSgrParams fgEsc else []) ++
    (if bgEsc ≠ [] then extractSgrParams (fgToBgEscape bgEsc) else []) ++
    (if underlineSpaces then [pys "4"] else []) ++
    (if strikethroughSpaces then [pys "9"] else []))
  let str2 := maybeConvertTabs str1 (s.getInt "tab_width" 4)
    (s.isSet "tab_width")
  let str3 := replaceCRLF str2
  let str4 := if inline then str3.filter (· ≠ '\n') else str3
  let str5 :=
    if !inline ∧ width > 0 then
      (if width - padLeft - padRight > 0 then
        wordWrap str4 (width - padLeft - padRight)
      else str4)
    else str4
  let str6 := joinNl ((splitNl str5).map (fun line =>
    if useSpaceStyler then
      line.flatMap (fun ch =>
        if ch = ' ' ∨ ch = '\t' then applySgr spSgr [ch]
        else applySgr mainSgr [ch])
    else applySgr mainSgr line))
  let str7 :=
    if !inline ∧ padLeft > 0 then
      joinNl ((splitNl str6).map
        (fun l => applySgr wsSgr (pyRep padLeft ' ') ++ l))
    else str6
  let str8 :=
    if !inline ∧ padRight > 0 then
      joinNl ((splitNl str7).map
        (fun l => l ++ applySgr wsSgr (pyRep padRight ' ')))
    else str7
  let str9 := if !inline ∧ padTop > 0 then pyRep padTop '\n' ++ str8
    else str8
  let str10 := if !inline ∧ padBottom > 0 then str9 ++ pyRep padBottom '\n'
    else str9
  let str11 := if height > 0 then alignTextVertical str10 vAlign height
    else str10
  let str12 :=
    if countNl str11 ≠ 0 ∨ width ≠ 0 then
      alignTextHorizontal str11 hAlign width
        (if colorWhitespace || styleWhitespace then
          some (applySgr wsSgr) else none)
    else str11
  str12

/-- `Style.render` applied to the already-joined input string: the whole
pipeline of `style.py` lines 60-259.  The returned renderer is the
post-state of the lazily-caching resolver; `none` models a raised
exception escaping from color resolution. -/
def Style.renderJoined (s : Style) (ren : Renderer) (str0 : List Char) :
    Option (List Char) × Renderer :=
  let str1 := match s.getTransform with
    | some f => f str0
    | none => str0
  if s.props.isEmpty then
    (some (maybeConvertTabs str1 (s.getInt "tab_width" 4) (s.isSet "tab_width")),
      ren)
  else
    let fgStep := match s.getColor "foreground" with
      | some c => c.resolveSt ren
      | none => (some [], ren)
    match fgStep with
    | (none, r1) => (none, r1)
    | (some fgEsc, r1) =>
      let bgStep := match s.getColor "background" with
        | some c => c.resolveSt r1
        | none => (some [], r1)
      match bgStep with
      | (none, r2) => (none, r2)
      | (some bgEsc, r2) =>
        let str12 := renderBody s fgEsc bgEsc str1
        if s.getBool "inline" false then (some (renderTruncate s str12), r2)
        else
          match s.applyBorder r2 str12 with
          | (none, r3) => (none, r3)
          | (some strB, r3) =>
            match s.applyMargins r3 strB with
            | (none, r4) => (none, r4)
            | (some strM, r4) => (some (renderTruncate s strM), r4)

/-- `Style.render`: join the argument strings with single spaces,
prepending the `set_string` value when nonempty, then run the pipeline.
The returned `Style` is the post-state of the receiver: `render`
assigns to no attribute, so it is the receiver unchanged. -/
def Style.render (s : Style) (ren : Renderer) (strings : List (List Char)) :
    Option (List Char) × Style × Renderer :=
  let strs := if s.value ≠ [] then s.value :: strings else strings
  let res := s.renderJoined ren (joinSep (pys " ") strs)
  (res.1, s, res.2)

/-- `width` from `size.py`: the visible width of the widest line.  This
is the measurement the spec calls `content_width`. -/
def sizeWidth (s : List Char) : Nat := listMaxNat ((splitNl s).map visWidth)

/-! ## Measurement lemmas

The visible width is additive for space padding: appended or prepended
runs of spaces (and other characters outside every escape character
class) contribute one cell each, because they can extend a candidate
escape sequence only with intermediate bytes and never supply the
required final byte. -/

/-- Characters that can never occur inside or complete an ANSI escape:
not a parameter, final, or single-escape byte, not `[`, not ESC.
Spaces and carriage returns qualify. -/
def escInert (c : Char) : Bool :=
  !isCsiParam c && !isCsiFinal c && !isEscSingleFinal c && !(c = '[') &&
    !(c = escChar)

theorem escInert_space : escInert ' ' = true := by decide

theorem escInert_cr : escInert '\r' = true := by decide

theorem takeWhile_append_of_drop_ne {p : Char → Bool} :
    ∀ {xs : List Char} (ys : List Char), xs.dropWhile p ≠ [] →
      (xs ++ ys).takeWhile p = xs.takeWhile p ∧
      (xs ++ ys).dropWhile p = xs.dropWhile p ++ ys := by
  intro xs
  induction xs with
  | nil => intro ys h; simp [List.dropWhile] at h
  | cons x xs ih =>
    intro ys h
    simp only [List.cons_append, List.takeWhile, List.dropWhile] at h ⊢
    cases hp : p x with
    | true =>
      simp only [hp] at h ⊢
      have := ih ys h
      simp [this.1, this.2]
    | false => simp [hp]

theorem takeWhile_append_of_drop_eq {p : Char → Bool} :
    ∀ {xs : List Char} (ys : List Char), xs.dropWhile p = [] →
      (xs ++ ys).takeWhile p = xs ++ ys.takeWhile p ∧
      (xs ++ ys).dropWhile p = ys.dropWhile p := by
  intro xs
  induction xs with
  | nil => intro ys _; simp
  | cons x xs ih =>
    intro ys h
    simp only [List.cons_append, List.takeWhile, List.dropWhile] at h ⊢
    cases hp : p x with
    | true =>
      simp only [hp] at h ⊢
      have := ih ys h
      simp [this.1, this.2]
    | false => simp [hp] at h

theorem mem_of_mem_dropWhile {p : Char → Bool} :
    ∀ {xs : List Char} {c : Char}, c ∈ xs.dropWhile p → c ∈ xs := by
  intro xs
  induction xs with
  | nil => intro c h; simp [List.dropWhile] at h
  | cons x xs ih =>
    intro c h
    simp only [List.dropWhile] at h
    cases hp : p x with
    | true =>
      rw [hp] at h
      exact List.mem_cons_of_mem _ (ih h)
    | false =>
      rw [hp] at h
      exact h

theorem takeWhile_eq_nil_of_none {p : Char → Bool} {sp : List Char}
    (h : ∀ c ∈ sp, p c = false) :
    sp.takeWhile p = [] ∧ sp.dropWhile p = sp := by
  cases sp with
  | nil => exact ⟨rfl, rfl⟩
  | cons a as =>
    have := h a (List.mem_cons_self _ _)
    simp [List.takeWhile, List.dropWhile, this]

/-- Appending an escape-inert suffix does not change how an escape
candidate after an ESC byte parses: a successful parse never reaches
the suffix (it has no final bytes), and a failing one stays failing. -/
theorem parseEsc_append_inert (sp : List Char) (hsp : sp.all escInert) :
    ∀ (l : List Char),
      parseEsc (l ++ sp) = (parseEsc l).map (fun mr => (mr.1, mr.2 ++ sp)) := by
  have hone : ∀ c ∈ sp, isCsiParam c = false ∧ isCsiFinal c = false ∧
      isEscSingleFinal c = false ∧ c ≠ '[' ∧ c ≠ escChar := by
    intro c hc
    have := List.all_eq_true.mp hsp c hc
    unfold escInert at this
    simp only [Bool.and_eq_true, Bool.not_eq_true', decide_eq_false_iff_not]
      at this
    exact ⟨this.1.1.1.1, this.1.1.1.2, this.1.1.2, this.1.2, this.2⟩
  have hspP : ∀ c ∈ sp, isCsiParam c = false := fun c hc => (hone c hc).1
  have hspF : ∀ c ∈ sp, isCsiFinal c = false := fun c hc => (hone c hc).2.1
  have hspSF : ∀ c ∈ sp, isEscSingleFinal c = false :=
    fun c hc => (hone c hc).2.2.1
  have hspBr : ∀ c ∈ sp, c ≠ '[' := fun c hc => (hone c hc).2.2.2.1
  intro l
  cases l with
  | nil =>
    simp only [List.nil_append, parseEsc, Option.map_none]
    cases hspc : sp with
    | nil => rfl
    | cons c rest =>
      simp only [parseEsc]
      have hc : c ∈ sp := by rw [hspc]; exact List.mem_cons_self _ _
      rw [hspSF c hc]
      simp only [Bool.false_eq_true, if_false]
      rw [if_neg (hspBr c hc)]
      rfl
  | cons c rest =>
    simp only [List.cons_append, parseEsc]
    by_cases h1 : isEscSingleFinal c
    · simp [h1]
    · simp only [h1, Bool.false_eq_true, if_false]
      by_cases h2 : c = '['
      · simp only [h2, if_true]
        have hspPfacts := takeWhile_eq_nil_of_none hspP
        by_cases hd : rest.dropWhile isCsiParam = []
        · obtain ⟨ht1, ht2⟩ := takeWhile_append_of_drop_eq (p := isCsiParam)
            sp hd
          rw [ht1, ht2, hspPfacts.2]
          rw [hd]
          simp only [List.dropWhile, List.takeWhile]
          cases hqd : sp.dropWhile isCsiInter with
          | nil => rfl
          | cons f r3 =>
            have hf : f ∈ sp :=
              mem_of_mem_dropWhile (p := isCsiInter) (by rw [hqd]; simp)
            simp [hspF f hf]
        · obtain ⟨ht1, ht2⟩ := takeWhile_append_of_drop_ne (p := isCsiParam)
            sp hd
          rw [ht1, ht2]
          by_cases hd2 : (rest.dropWhile isCsiParam).dropWhile isCsiInter = []
          · obtain ⟨hu1, hu2⟩ := takeWhile_append_of_drop_eq (p := isCsiInter)
              sp hd2
            rw [hu1, hu2, hd2]
            cases hqd : sp.dropWhile isCsiInter with
            | nil => rfl
            | cons f r3 =>
              have hf : f ∈ sp :=
                mem_of_mem_dropWhile (p := isCsiInter) (by rw [hqd]; simp)
              simp [hspF f hf]
          · obtain ⟨hu1, hu2⟩ := takeWhile_append_of_drop_ne (p := isCsiInter)
              sp hd2
            rw [hu1, hu2]
            cases hfr : (rest.dropWhile isCsiParam).dropWhile isCsiInter with
            | nil => exact absurd hfr hd2
            | cons f r3 =>
              simp only [List.cons_append]
              by_cases hF : isCsiFinal f
              · simp [hF]
              · simp [hF]
      · simp [h2]

theorem stripAnsi_no_esc : ∀ {l : List Char}, (∀ c ∈ l, c ≠ escChar) →
    stripAnsi l = l := by
  intro l
  induction l with
  | nil => intro _; rfl
  | cons c rest ih =>
    intro h
    rw [stripAnsi_cons_of_ne c rest (h c (List.mem_cons_self _ _))]
    rw [ih (fun x hx => h x (List.mem_cons_of_mem _ hx))]

theorem escInert_ne_esc {sp : List Char} (hsp : sp.all escInert) :
    ∀ c ∈ sp, c ≠ escChar := by
  intro c hc
  have := List.all_eq_true.mp hsp c hc
  unfold escInert at this
  simp only [Bool.and_eq_true, Bool.not_eq_true', decide_eq_false_iff_not]
    at this
  exact this.2

/-- Appending an escape-inert suffix adds its characters verbatim to the
ANSI-stripped string. -/
theorem stripAnsi_append_inert (sp : List Char) (hsp : sp.all escInert) :
    ∀ (l : List Char), stripAnsi (l ++ sp) = stripAnsi l ++ sp := by
  have hbase : stripAnsi sp = sp := stripAnsi_no_esc (escInert_ne_esc hsp)
  have main : ∀ (k : Nat) (l : List Char), l.length ≤ k →
      stripAnsi (l ++ sp) = stripAnsi l ++ sp := by
    intro k
    induction k with
    | zero =>
      intro l hl
      have : l = [] := List.length_eq_zero.mp (Nat.le_zero.mp hl)
      subst this
      simpa using hbase
    | succ k ih =>
      intro l hl
      cases l with
      | nil => simpa using hbase
      | cons c rest =>
        by_cases hc : c = escChar
        · subst hc
          rw [List.cons_append, stripAnsi_cons, stripAnsi_cons,
            parseEsc_append_inert sp hsp rest]
          cases hp : parseEsc rest with
          | none =>
            simp only [Option.map_none]
            rw [ih rest (by simp at hl; omega)]
            simp
          | some mr =>
            obtain ⟨m, r⟩ := mr
            simp only [Option.map_some]
            have hr : r.length < rest.length := parseEsc_rest_length hp
            exact ih r (by simp at hl; omega)
        · rw [List.cons_append, stripAnsi_cons_of_ne c _ hc,
            stripAnsi_cons_of_ne c _ hc, ih rest (by simp at hl; omega)]
          simp
  intro l
  exact main l.length l le_rfl

/-- Prepending ESC-free text adds its characters verbatim to the
ANSI-stripped string. -/
theorem stripAnsi_prepend_no_esc :
    ∀ (pre : List Char), (∀ c ∈ pre, c ≠ escChar) → ∀ (l : List Char),
      stripAnsi (pre ++ l) = pre ++ stripAnsi l := by
  intro pre
  induction pre with
  | nil => intro _ l; simp
  | cons c rest ih =>
    intro h l
    rw [List.cons_append, stripAnsi_cons_of_ne c _ (h c (List.mem_cons_self _ _)),
      ih (fun x hx => h x (List.mem_cons_of_mem _ hx)) l]
    simp

theorem replicate_space_inert (n : Nat) :
    (List.replicate n ' ').all escInert = true := by
  rw [List.all_eq_true]
  intro c hc
  rw [List.eq_of_mem_replicate hc]
  decide

theorem visWidth_append_spaces (l : List Char) (n : Nat) :
    visWidth (l ++ List.replicate n ' ') = visWidth l + n := by
  unfold visWidth
  rw [stripAnsi_append_inert _ (replicate_space_inert n) l]
  simp

theorem visWidth_spaces_append (n : Nat) (l : List Char) :
    visWidth (List.replicate n ' ' ++ l) = n + visWidth l := by
  unfold visWidth
  rw [stripAnsi_prepend_no_esc _ (fun c hc => by
    rw [List.eq_of_mem_replicate hc]; decide) l]
  simp

theorem visWidth_append_cr (l : List Char) :
    visWidth (l ++ ['\r']) = visWidth l + 1 := by
  unfold visWidth
  rw [stripAnsi_append_inert ['\r'] (by decide) l]
  simp

/-! ## Line-structure lemmas -/

theorem splitNl_no_nl : ∀ (s : List Char), ∀ l ∈ splitNl s, '\n' ∉ l := by
  intro s
  induction s with
  | nil =>
    intro l hl
    simp only [splitNl, List.mem_singleton] at hl
    simp [hl]
  | cons c rest ih =>
    intro l hl
    simp only [splitNl] at hl
    by_cases hc : c = '\n'
    · rw [if_pos hc] at hl
      rcases List.mem_cons.mp hl with rfl | h
      · simp
      · exact ih l h
    · rw [if_neg hc] at hl
      cases hs : splitNl rest with
      | nil => exact absurd hs (splitNl_ne_nil rest)
      | cons a as =>
        rw [hs] at hl
        rcases List.mem_cons.mp hl with rfl | h
        · intro hmem
          rcases List.mem_cons.mp hmem with h1 | h1
          · exact hc h1.symm
          · exact ih a (by rw [hs]; exact List.mem_cons_self _ _) h1
        · exact ih l (by rw [hs]; exact List.mem_cons_of_mem _ h)

theorem le_listMaxNat : ∀ {l : List Nat} {x : Nat}, x ∈ l → x ≤ listMaxNat l := by
  intro l
  induction l with
  | nil => intro x h; simp at h
  | cons a as ih =>
    intro x h
    rcases List.mem_cons.mp h with rfl | h
    · simp [listMaxNat, List.foldr_cons]
    · have := ih h
      simp only [listMaxNat, List.foldr_cons]
      have h2 : listMaxNat as ≤ max a (listMaxNat as) := le_max_right _ _
      unfold listMaxNat at this
      omega

theorem listMaxNat_le {l : List Nat} {b : Nat} (h : ∀ x ∈ l, x ≤ b) :
    listMaxNat l ≤ b := by
  induction l with
  | nil => simp [listMaxNat]
  | cons a as ih =>
    simp only [listMaxNat, List.foldr_cons]
    have h1 : a ≤ b := h a (List.mem_cons_self _ _)
    have h2 : listMaxNat as ≤ b := ih (fun x hx => h x (List.mem_cons_of_mem _ hx))
    unfold listMaxNat at h2
    omega

theorem flatMap_singleton {α : Type} :
    ∀ (l : List α) (f : α → List α), (∀ x ∈ l, f x = [x]) → l.flatMap f = l := by
  intro l
  induction l with
  | nil => intro f _; rfl
  | cons a as ih =>
    intro f h
    rw [List.flatMap_cons, h a (List.mem_cons_self _ _),
      ih f (fun x hx => h x (List.mem_cons_of_mem _ hx))]
    rfl

/-- `_word_wrap` passes a string through unchanged when every line
already fits. -/
theorem wordWrap_noop (s : List Char) (width : Int)
    (h : ∀ l ∈ splitNl s, (visWidth l : Int) ≤ width) :
    wordWrap s width = s := by
  unfold wordWrap
  by_cases hw : width ≤ 0
  · simp [hw]
  · rw [if_neg hw]
    rw [flatMap_singleton (splitNl s) _ (fun l hl => by rw [if_pos (h l hl)])]
    exact joinNl_splitNl s

/-- `_maybe_convert_tabs` is the identity on tab-free text. -/
theorem maybeConvertTabs_no_tab (t : List Char) (tw : Int) (ex : Bool)
    (ht : '\t' ∉ t) : maybeConvertTabs t tw ex = t := by
  unfold maybeConvertTabs
  by_cases h1 : (if ex then tw else 4) = -1
  · simp [h1]
  · rw [if_neg h1]
    apply flatMap_singleton
    intro c hc
    rw [if_neg (by intro hcc; rw [hcc] at hc; exact ht hc)]

/-- Remove one trailing carriage return (the per-line effect of the
CRLF normalisation on every line followed by a newline). -/
def rmCR (l : List Char) : List Char :=
  if l.getLast? = some '\r' then l.dropLast else l

/-- Apply `f` to every element except the last. -/
def mapButLast (f : List Char → List Char) : List (List Char) → List (List Char)
  | [] => []
  | [x] => [x]
  | x :: y :: ys => f x :: mapButLast f (y :: ys)

theorem mapButLast_ne_nil (f : List Char → List Char)
    (ls : List (List Char)) (h : ls ≠ []) : mapButLast f ls ≠ [] := by
  cases ls with
  | nil => exact absurd rfl h
  | cons x xs => cases xs <;> simp [mapButLast]

theorem mem_mapButLast {f : List Char → List Char} :
    ∀ {ls : List (List Char)} {l : List Char}, l ∈ mapButLast f ls →
      l ∈ ls ∨ ∃ x ∈ ls, l = f x := by
  intro ls
  induction ls with
  | nil => intro l h; simp [mapButLast] at h
  | cons x xs ih =>
    intro l h
    cases xs with
    | nil =>
      simp only [mapButLast, List.mem_singleton] at h
      left
      simp [h]
    | cons y ys =>
      simp only [mapButLast] at h
      rcases List.mem_cons.mp h with rfl | h2
      · right
        exact ⟨x, List.mem_cons_self _ _, rfl⟩
      · rcases ih h2 with h3 | ⟨z, hz, hfz⟩
        · left
          exact List.mem_cons_of_mem _ h3
        · right
          exact ⟨z, List.mem_cons_of_mem _ hz, hfz⟩

theorem rmCR_cons (c : Char) (h : List Char) (hne : h ≠ []) :
    rmCR (c :: h) = c :: rmCR h := by
  unfold rmCR
  cases h with
  | nil => exact absurd rfl hne
  | cons d ds =>
    rw [List.getLast?_cons_cons]
    by_cases hl : (d :: ds).getLast? = some '\r'
    · rw [if_pos hl, if_pos hl]
      rfl
    · rw [if_neg hl, if_neg hl]

theorem splitNl_head_nil_of_two {r : List Char} {t1 : List Char}
    {tl : List (List Char)} (h : splitNl r = [] :: t1 :: tl) :
    ∃ r2, r = '\n' :: r2 := by
  cases r with
  | nil => simp [splitNl] at h
  | cons c rest =>
    by_cases hc : c = '\n'
    · exact ⟨rest, by rw [hc]⟩
    · exfalso
      simp only [splitNl, hc, if_false] at h
      cases hs : splitNl rest with
      | nil => exact absurd hs (splitNl_ne_nil rest)
      | cons a as =>
        rw [hs] at h
        simp at h

theorem splitNl_cons_nl (x : List Char) : splitNl ('\n' :: x) = [] :: splitNl x := by
  simp [splitNl]

theorem splitNl_cons_of_ne (c : Char) (x : List Char) (hc : c ≠ '\n')
    {h : List Char} {t : List (List Char)} (hx : splitNl x = h :: t) :
    splitNl (c :: x) = (c :: h) :: t := by
  simp only [splitNl, hc, if_false, hx]

theorem splitNl_replaceCRLF : ∀ (t : List Char),
    splitNl (replaceCRLF t) = mapButLast rmCR (splitNl t) := by
  have main : ∀ (k : Nat) (t : List Char), t.length ≤ k →
      splitNl (replaceCRLF t) = mapButLast rmCR (splitNl t) := by
    intro k
    induction k with
    | zero =>
      intro t ht
      have : t = [] := List.length_eq_zero.mp (Nat.le_zero.mp ht)
      subst this
      rfl
    | succ k ih =>
      intro t ht
      cases t with
      | nil => rfl
      | cons c rest =>
        cases rest with
        | nil =>
          by_cases hc : c = '\n'
          · subst hc
            rfl
          · have h1 : replaceCRLF [c] = [c] := by
              by_cases hcc : c = '\r'
              · subst hcc
                rfl
              · rw [replaceCRLF.eq_def]
                simp [hcc, replaceCRLF]
            rw [h1]
            rw [splitNl_cons_of_ne c [] hc (by rfl)]
            rfl
        | cons d r2 =>
          by_cases hcr : c = '\r' ∧ d = '\n'
          · obtain ⟨rfl, rfl⟩ := hcr
            have h1 : replaceCRLF ('\r' :: '\n' :: r2) = '\n' :: replaceCRLF r2 :=
              rfl
            rw [h1]
            have hIH : splitNl (replaceCRLF r2) = mapButLast rmCR (splitNl r2) :=
              ih r2 (by simp at ht; omega)
            rw [splitNl_cons_nl, hIH]
            have h3 : splitNl ('\r' :: '\n' :: r2) = ['\r'] :: splitNl r2 :=
              splitNl_cons_of_ne '\r' _ (by decide) (splitNl_cons_nl r2)
            rw [h3]
            cases hs : splitNl r2 with
            | nil => exact absurd hs (splitNl_ne_nil r2)
            | cons a as =>
              simp only [mapButLast]
              have : rmCR ['\r'] = [] := by decide
              rw [this]
          · have h1 : replaceCRLF (c :: d :: r2) = c :: replaceCRLF (d :: r2) := by
              cases hcc : decide (c = '\r') with
              | false =>
                have hc' : c ≠ '\r' := by simpa using hcc
                conv =>
                  left
                  rw [replaceCRLF.eq_def]
                cases hdd : decide (d = '\n') with
                | false =>
                  have hd' : d ≠ '\n' := by simpa using hdd
                  simp [hc']
                | true =>
                  have hd' : d = '\n' := by simpa using hdd
                  subst hd'
                  simp [hc']
              | true =>
                have hc' : c = '\r' := by simpa using hcc
                subst hc'
                have hd' : d ≠ '\n' := by
                  intro hdd
                  exact hcr ⟨rfl, hdd⟩
                conv =>
                  left
                  rw [replaceCRLF.eq_def]
                simp [hd']
            rw [h1]
            have hIH : splitNl (replaceCRLF (d :: r2)) =
                mapButLast rmCR (splitNl (d :: r2)) := ih (d :: r2) (by
                  simp at ht ⊢; omega)
            by_cases hc : c = '\n'
            · subst hc
              rw [splitNl_cons_nl, splitNl_cons_nl, hIH]
              cases hs : splitNl (d :: r2) with
              | nil => exact absurd hs (splitNl_ne_nil _)
              | cons a as =>
                cases as with
                | nil => rfl
                | cons b bs =>
                  show mapButLast rmCR ([] :: a :: b :: bs) =
                    mapButLast rmCR ([] :: a :: b :: bs)
                  rfl
            · cases hs : splitNl (d :: r2) with
              | nil => exact absurd hs (splitNl_ne_nil _)
              | cons h tl =>
                have hIH2 : splitNl (replaceCRLF (d :: r2)) =
                    mapButLast rmCR (h :: tl) := by rw [hIH, hs]
                cases tl with
                | nil =>
                  rw [splitNl_cons_of_ne c _ hc (by rw [hIH2]; rfl),
                    splitNl_cons_of_ne c _ hc hs]
                  rfl
                | cons t1 tl2 =>
                  have hmbl : mapButLast rmCR (h :: t1 :: tl2) =
                      rmCR h :: mapButLast rmCR (t1 :: tl2) := rfl
                  rw [splitNl_cons_of_ne c _ hc (by rw [hIH2, hmbl]),
                    splitNl_cons_of_ne c _ hc hs]
                  show (c :: rmCR h) :: mapButLast rmCR (t1 :: tl2) =
                    rmCR (c :: h) :: mapButLast rmCR (t1 :: tl2)
                  by_cases hh : h = []
                  · subst hh
                    obtain ⟨r3, hr3⟩ := splitNl_head_nil_of_two hs
                    have hd' : d = '\n' := by
                      cases hr3
                      rfl
                    have hcne : c ≠ '\r' := by
                      intro hcc
                      exact hcr ⟨hcc, hd'⟩
                    have h4 : rmCR [c] = [c] := by
                      unfold rmCR
                      rw [if_neg (by simpa using hcne)]
                    rw [h4]
                    rfl
                  · rw [rmCR_cons c h hh]
  intro t
  exact main t.length t le_rfl

theorem visWidth_rmCR_le (l : List Char) : visWidth (rmCR l) ≤ visWidth l := by
  unfold rmCR
  by_cases h : l.getLast? = some '\r'
  · rw [if_pos h]
    have hne : l ≠ [] := by
      intro hl
      rw [hl] at h
      simp at h
    have hrep : l.dropLast ++ [l.getLast hne] = l := List.dropLast_append_getLast hne
    have hlast : l.getLast hne = '\r' := by
      have := List.getLast?_eq_getLast l hne
      rw [h] at this
      exact (Option.some_inj.mp this).symm
    calc visWidth l.dropLast ≤ visWidth l.dropLast + 1 := by omega
    _ = visWidth (l.dropLast ++ ['\r']) := (visWidth_append_cr _).symm
    _ = visWidth l := by rw [← hlast, hrep]
  · rw [if_neg h]

/-- Every line of the CRLF-normalised text is at most as wide as the
widest raw line. -/
theorem replaceCRLF_line_le (t : List Char) :
    ∀ l ∈ splitNl (replaceCRLF t), visWidth l ≤ sizeWidth t := by
  intro l hl
  rw [splitNl_replaceCRLF] at hl
  rcases mem_mapButLast hl with h | ⟨x, hx, rfl⟩
  · exact le_listMaxNat (List.mem_map_of_mem visWidth h)
  · exact le_trans (visWidth_rmCR_le x)
      (le_listMaxNat (List.mem_map_of_mem visWidth hx))

/-! ## Alignment lemmas -/

theorem applySgr_nil (s : List Char) : applySgr [] s = s := rfl

theorem pyRep_no_nl (n : Int) : '\n' ∉ pyRep n ' ' := by
  intro h
  have := List.eq_of_mem_replicate h
  simp at this

/-- The per-line transformation performed by `_align_text_horizontal`
(abbreviation used by the lemmas below). -/
def alignLine (widest : Nat) (pos : ℚ) (width : Int) (line : List Char) :
    List Char :=
  let lineW := visWidth line
  let short0 : Int := (widest : Int) - (lineW : Int)
  let short : Int := short0 + max 0 (width - (short0 + (lineW : Int)))
  if short ≤ 0 then line
  else
    let posC := max 0 (min 1 pos)
    if posC = 1 then pyRep short ' ' ++ line
    else if posC = ratHalf then
      pyRep (short.fdiv 2) ' ' ++ line ++ pyRep (short.fdiv 2 + short.emod 2) ' '
    else line ++ pyRep short ' '

/-- `_align_text_horizontal` with no whitespace styler is exactly the
per-line map of `alignLine` over the split lines. -/
theorem alignTextHorizontal_eq_map (s : List Char) (pos : ℚ) (width : Int) :
    alignTextHorizontal s pos width none =
      joinNl ((splitNl s).map
        (alignLine (listMaxNat ((splitNl s).map visWidth)) pos width)) := by
  unfold alignTextHorizontal alignLine
  rfl

/-- The identity whitespace styler produced by an empty SGR sequence
changes nothing: the styled variant coincides with the unstyled one. -/
theorem alignTextHorizontal_trivial_styler (s : List Char) (pos : ℚ)
    (width : Int) :
    alignTextHorizontal s pos width (some (applySgr [])) =
      alignTextHorizontal s pos width none := by
  unfold alignTextHorizontal
  rfl

theorem alignLine_no_nl (widest : Nat) (pos : ℚ) (width : Int)
    (line : List Char) (h : '\n' ∉ line) :
    '\n' ∉ alignLine widest pos width line := by
  unfold alignLine
  intro hmem
  dsimp only at hmem
  split at hmem
  · exact h hmem
  · split at hmem
    · rcases List.mem_append.mp hmem with h1 | h1
      · exact pyRep_no_nl _ h1
      · exact h h1
    · split at hmem
      · rcases List.mem_append.mp hmem with h1 | h1
        · rcases List.mem_append.mp h1 with h2 | h2
          · exact pyRep_no_nl _ h2
          · exact h h2
        · exact pyRep_no_nl _ h1
      · rcases List.mem_append.mp hmem with h1 | h1
        · exact h h1
        · exact pyRep_no_nl _ h1

/-- The width of an aligned line: exactly the maximum of the widest
input line and the requested width, whenever the line is no wider than
the widest. -/
theorem alignLine_width (widest : Nat) (pos : ℚ) (width : Int)
    (line : List Char) (h : visWidth line ≤ widest) :
    visWidth (alignLine widest pos width line) = max widest width.toNat := by
  unfold alignLine
  set lineW := visWidth line with hlw
  set short0 : Int := (widest : Int) - (lineW : Int) with hs0
  set short : Int := short0 + max 0 (width - (short0 + (lineW : Int)))
    with hshort
  have hs0nn : 0 ≤ short0 := by omega
  have hmaxnn : 0 ≤ max 0 (width - (short0 + (lineW : Int))) := le_max_left _ _
  by_cases hle : short ≤ 0
  · rw [if_pos hle]
    have h2 : max 0 (width - (short0 + (lineW : Int))) = 0 := by omega
    have h4 : width - (short0 + (lineW : Int)) ≤ 0 :=
      max_eq_left_iff.mp h2
    have h3 : lineW = widest := by omega
    rw [Nat.max_eq_left (show width.toNat ≤ widest by omega), ← hlw, h3]
  · rw [if_neg hle]
    have hpos : 0 < short := by omega
    have hfd : 0 ≤ short.fdiv 2 := Int.fdiv_nonneg (by omega) (by omega)
    have hem : 0 ≤ short.emod 2 := Int.emod_nonneg short (by omega)
    have hsplit : 2 * short.fdiv 2 + short.emod 2 = short := by
      rw [Int.fdiv_eq_ediv _ (by omega),
        show short.emod 2 = short % 2 from rfl]
      omega
    have hvis : visWidth (
        if max 0 (min 1 pos) = 1 then pyRep short ' ' ++ line
        else if max 0 (min 1 pos) = ratHalf then
          pyRep (short.fdiv 2) ' ' ++ line ++
            pyRep (short.fdiv 2 + short.emod 2) ' '
        else line ++ pyRep short ' ') = lineW + short.toNat := by
      by_cases hp1 : max 0 (min 1 pos) = 1
      · rw [if_pos hp1]
        rw [show pyRep short ' ' ++ line = List.replicate short.toNat ' ' ++ line
          from rfl, visWidth_spaces_append, ← hlw]
        omega
      · rw [if_neg hp1]
        by_cases hp2 : max 0 (min 1 pos) = ratHalf
        · rw [if_pos hp2]
          rw [show pyRep (short.fdiv 2) ' ' ++ line ++
              pyRep (short.fdiv 2 + short.emod 2) ' ' =
              List.replicate (short.fdiv 2).toNat ' ' ++
              (line ++ List.replicate (short.fdiv 2 + short.emod 2).toNat ' ')
            from by simp [pyRep, List.append_assoc]]
          rw [visWidth_spaces_append, visWidth_append_spaces, ← hlw]
          omega
        · rw [if_neg hp2]
          rw [show line ++ pyRep short ' ' =
              line ++ List.replicate short.toNat ' ' from rfl,
            visWidth_append_spaces, ← hlw]
    rw [hvis]
    rcases le_total width ((widest : Int)) with hw | hw
    · have hmx : max 0 (width - (short0 + (lineW : Int))) = 0 :=
        max_eq_left (by omega)
      rw [hmx] at hshort
      rw [Nat.max_eq_left (show width.toNat ≤ widest by omega)]
      omega
    · have hmx : max 0 (width - (short0 + (lineW : Int))) =
          width - (short0 + (lineW : Int)) := max_eq_right (by omega)
      rw [hmx] at hshort
      rw [Nat.max_eq_right (show widest ≤ width.toNat by omega)]
      omega

theorem splitNl_align (s : List Char) (pos : ℚ) (width : Int) :
    splitNl (alignTextHorizontal s pos width none) =
      (splitNl s).map
        (alignLine (listMaxNat ((splitNl s).map visWidth)) pos width) := by
  rw [alignTextHorizontal_eq_map]
  apply splitNl_joinNl
  · intro h
    exact splitNl_ne_nil s (List.map_eq_nil_iff.mp h)
  · intro l hl
    obtain ⟨line, hline, rfl⟩ := List.mem_map.mp hl
    exact alignLine_no_nl _ _ _ _ (splitNl_no_nl s line hline)

/-- Every line of `_align_text_horizontal` output has visible width
exactly the maximum of the widest input line and the requested width. -/
theorem alignTextHorizontal_widths (s : List Char) (pos : ℚ) (width : Int) :
    ∀ l ∈ splitNl (alignTextHorizontal s pos width none),
      visWidth l = max (listMaxNat ((splitNl s).map visWidth)) width.toNat := by
  intro l hl
  rw [splitNl_align] at hl
  obtain ⟨line, hline, rfl⟩ := List.mem_map.mp hl
  exact alignLine_width _ _ _ _ (le_listMaxNat (List.mem_map_of_mem visWidth hline))

/-- Any alignment fraction strictly between 0 and 1 other than exactly
one half behaves as left alignment. -/
theorem alignTextHorizontal_frac_left (s : List Char) (pos : ℚ) (width : Int)
    (h0 : 0 < pos) (h1 : pos < 1) (hhalf : pos ≠ 1 / 2) :
    alignTextHorizontal s pos width none =
      alignTextHorizontal s 0 width none := by
  rw [alignTextHorizontal_eq_map, alignTextHorizontal_eq_map]
  congr 1
  apply List.map_congr_left
  intro line _
  unfold alignLine
  dsimp only
  split
  · rfl
  · have hp : max 0 (min 1 pos) = pos := by
      rw [min_eq_right (le_of_lt h1), max_eq_right (le_of_lt h0)]
    have hz : max 0 (min 1 (0 : ℚ)) = 0 := by norm_num
    rw [hp, hz]
    have hhalf2 : pos ≠ ratHalf := by rw [ratHalf_eq]; exact hhalf
    rw [if_neg (by intro h; rw [h] at h1; exact lt_irrefl _ h1),
      if_neg hhalf2, if_neg (by norm_num), if_neg (by rw [ratHalf_eq]; norm_num)]

/-- At exactly one half, each line's gap is split as `⌊gap/2⌋` spaces on
the left and the remainder on the right. -/
theorem alignTextHorizontal_center (s : List Char) (width : Int) :
    splitNl (alignTextHorizontal s ratHalf width none) =
      (splitNl s).map (fun line =>
        let widest := listMaxNat ((splitNl s).map visWidth)
        let short0 : Int := (widest : Int) - (visWidth line : Int)
        let short : Int := short0 + max 0 (width - (short0 + (visWidth line : Int)))
        if short ≤ 0 then line
        else pyRep (short.fdiv 2) ' ' ++ line ++ pyRep (short - short.fdiv 2) ' ') := by
  rw [splitNl_align]
  apply List.map_congr_left
  intro line _
  unfold alignLine
  dsimp only
  split
  · rfl
  · rename_i hshort
    have hp : max 0 (min 1 ratHalf) = ratHalf := by
      rw [ratHalf_eq]
      norm_num
    rw [hp, if_neg (by rw [ratHalf_eq]; norm_num), if_pos rfl]
    set short : Int := ((listMaxNat ((splitNl s).map visWidth) : Int) -
      (visWidth line : Int)) + max 0 (width -
        (((listMaxNat ((splitNl s).map visWidth) : Int) -
          (visWidth line : Int)) + (visWidth line : Int))) with hs
    have hsplit : 2 * short.fdiv 2 + short.emod 2 = short := by
      rw [Int.fdiv_eq_ediv _ (by omega),
        show short.emod 2 = short % 2 from rfl]
      omega
    congr 1
    show pyRep (short.fdiv 2 + short.emod 2) ' ' = pyRep (short - short.fdiv 2) ' '
    unfold pyRep
    congr 1
    omega

/-! ## The box-model sizing pipeline for `width + padding_left + align` -/

/-- `Style().width(w).padding_left(p).align_horizontal(f)`. -/
def c1Style (w p : Int) (f : ℚ) : Style :=
  ((emptyStyle.width w).paddingLeft p).alignHorizontal f

theorem pyRep_zero (c : Char) : pyRep 0 c = [] := rfl

/-- Symbolic evaluation of `Style.render`'s pipeline for a style with
only `width`, `padding_left` and `align_horizontal` set: no colors are
resolved, the SGR stylers are empty, and only tab conversion, CRLF
normalisation, word wrap, left padding and horizontal alignment act. -/
theorem renderJoined_c1 (w p : Int) (f : ℚ) (ren : Renderer) (t : List Char) :
    (c1Style w p f).renderJoined ren t =
      (some (
        let str3 := replaceCRLF (maybeConvertTabs t 4 false)
        let str5 := if 0 < w then
            (if 0 < w - p - 0 then wordWrap str3 (w - p - 0) else str3)
          else str3
        let str7 := if 0 < p then
            joinNl ((splitNl str5).map (fun l => pyRep p ' ' ++ l))
          else str5
        if ¬countNl str7 = 0 ∨ ¬w = 0 then alignTextHorizontal str7 f w none
        else str7), ren) := by
  unfold Style.renderJoined renderBody
  simp only [c1Style, emptyStyle, Style.width, Style.paddingLeft,
    Style.alignHorizontal, Style.setProp, dictSet, Style.getBool, Style.getInt,
    Style.getPos, Style.getColor, Style.getBorder, Style.getTransform,
    Style.get?, Style.isSet, dictGet, String.reduceEq, reduceIte,
    List.isEmpty, Option.isSome, Style.applyBorder, Style.applyMargins,
    styleMarginSt, renderTruncate, buildSgrParams, sgrOf, applySgr_nil,
    joinNl_splitNl, List.map_id, alignTextHorizontal_trivial_styler,
    Bool.false_eq_true, Bool.true_eq_false, if_true, if_false, ne_eq,
    Bool.false_and, Bool.and_false, Bool.true_and, Bool.and_true,
    Bool.false_or, Bool.or_false, Bool.not_false, Bool.not_true,
    decide_not, decide_False, decide_True, not_true, not_false_iff,
    List.nil_append, List.append_nil, gt_iff_lt, List.flatMap_nil,
    not_true_eq_false, not_false_eq_true, true_and, false_and, and_true,
    and_false, true_or, or_true, false_or, or_false,
    countNl, List.count_nil, lt_self_iff_false, List.map_id, List.map_id',
    List.map_id'', pyRep_zero]

/-- A newline-free string splits into just itself. -/
theorem splitNl_single (x : List Char) (h : '\n' ∉ x) : splitNl x = [x] := by
  have := splitNl_joinNl [x] (by simp) (by simpa using h)
  simpa [joinNl] using this

/-! ## Dict lemmas for the property store -/

/-- Setting a key then reading it back yields the written value. -/
theorem dictGet_dictSet_same (ps : List (String × PropValue)) (k : String)
    (v : PropValue) : dictGet (dictSet ps k v) k = some v := by
  induction ps with
  | nil => simp [dictSet, dictGet]
  | cons h t ih =>
    obtain ⟨k1, v1⟩ := h
    by_cases hk : k1 = k
    · simp [dictSet, dictGet, hk]
    · simp [dictSet, dictGet, hk, ih]

/-- Setting one key leaves reads of any other key unchanged. -/
theorem dictGet_dictSet_other (ps : List (String × PropValue))
    (kset kget : String) (v : PropValue) (h : kget ≠ kset) :
    dictGet (dictSet ps kset v) kget = dictGet ps kget := by
  induction ps with
  | nil => simp [dictSet, dictGet, Ne.symm h]
  | cons hd t ih =>
    obtain ⟨k1, v1⟩ := hd
    by_cases hk : k1 = kset
    · subst hk
      simp [dictSet, dictGet, Ne.symm h]
    · by_cases hg : k1 = kget
      · subst hg
        simp [dictSet, dictGet, hk]
      · simp [dictSet, dictGet, hk, hg, ih]

/-- Reading an integer property just written by `_set`. -/
theorem getInt_setProp_same (s : Style) (k : String) (n : Int) (d : Int) :
    (s.setProp k (.pInt n)).getInt k d = n := by
  simp [Style.setProp, Style.getInt, Style.get?, dictGet_dictSet_same]

/-- `_set` on one key does not change `_get` of another key. -/
theorem getInt_setProp_other (s : Style) (kset kget : String) (v : PropValue)
    (d : Int) (h : kget ≠ kset) :
    (s.setProp kset v).getInt kget d = s.getInt kget d := by
  simp [Style.setProp, Style.getInt, Style.get?,
    dictGet_dictSet_other _ _ _ _ h]

/-- `_expand_sides` raises for five or more values. -/
theorem expandSides_long (a b c d e : Int) (rest : List Int) :
    expandSides (a :: b :: c :: d :: e :: rest) = none := rfl

/-- The shorthand setters succeed exactly for one to four values. -/
theorem isSome_map_expandSides (f : Int × Int × Int × Int → Style)
    (values : List Int) :
    ((expandSides values).map f).isSome ↔
      1 ≤ values.length ∧ values.length ≤ 4 := by
  rcases values with _ | ⟨a, _ | ⟨b, _ | ⟨c, _ | ⟨d, _ | ⟨e, rest⟩⟩⟩⟩⟩
  · simp [expandSides]
  · simp [expandSides]
  · simp [expandSides]
  · simp [expandSides]
  · simp [expandSides]
  · simp [expandSides_long]

/-! ## Lemmas about the copy loop of `inherit` -/

/-- A key present in the child dict keeps its value through `inherit`'s
copy loop, whatever the parent items are. -/
theorem inheritProps_present (items : List (String × PropValue)) :
    ∀ ps k v, dictGet ps k = some v →
      dictGet (inheritProps ps items) k = some v := by
  induction items with
  | nil => intro ps k v h; simpa [inheritProps] using h
  | cons kv rest ih =>
    obtain ⟨k1, v1⟩ := kv
    intro ps k v h
    simp only [inheritProps]
    by_cases h1 : noInheritKeys.contains k1 = true
    · rw [if_pos h1]
      exact ih ps k v h
    · rw [if_neg h1]
      by_cases h2 : (dictGet ps k1).isSome = true
      · rw [if_pos h2]
        exact ih ps k v h
      · rw [if_neg h2]
        apply ih
        by_cases hk : k = k1
        · subst hk
          rw [h] at h2
          simp at h2
        · rw [dictGet_dictSet_other _ _ _ _ hk]
          exact h

/-- The copy loop never writes a no-inherit key. -/
theorem inheritProps_noInherit (items : List (String × PropValue)) :
    ∀ ps k, noInheritKeys.contains k = true →
      dictGet (inheritProps ps items) k = dictGet ps k := by
  induction items with
  | nil => intro ps k _; simp [inheritProps]
  | cons kv rest ih =>
    obtain ⟨k1, v1⟩ := kv
    intro ps k hk
    simp only [inheritProps]
    by_cases h1 : noInheritKeys.contains k1 = true
    · rw [if_pos h1]
      exact ih ps k hk
    · rw [if_neg h1]
      by_cases h2 : (dictGet ps k1).isSome = true
      · rw [if_pos h2]
        exact ih ps k hk
      · rw [if_neg h2]
        rw [ih (dictSet ps k1 v1) k hk]
        apply dictGet_dictSet_other
        intro he
        subst he
        exact h1 hk

/-- A key absent from the child and not in the no-inherit set ends up
with the parent's (first) value for it. -/
theorem inheritProps_absent (items : List (String × PropValue)) :
    ∀ ps k, dictGet ps k = none → noInheritKeys.contains k = false →
      dictGet (inheritProps ps items) k = dictGet items k := by
  induction items with
  | nil => intro ps k h _; simpa [inheritProps, dictGet] using h
  | cons kv rest ih =>
    obtain ⟨k1, v1⟩ := kv
    intro ps k h hni
    simp only [inheritProps]
    by_cases hk : k = k1
    · subst hk
      rw [if_neg (by rw [hni]; exact Bool.false_ne_true)]
      rw [if_neg (by rw [h]; simp)]
      rw [inheritProps_present rest (dictSet ps k v1) k v1
        (dictGet_dictSet_same ps k v1)]
      simp [dictGet]
    · have hgr : dictGet ((k1, v1) :: rest) k = dictGet rest k := by
        simp [dictGet, Ne.symm hk]
      rw [hgr]
      by_cases h1 : noInheritKeys.contains k1 = true
      · rw [if_pos h1]
        exact ih ps k h hni
      · rw [if_neg h1]
        by_cases h2 : (dictGet ps k1).isSome = true
        · rw [if_pos h2]
          exact ih ps k h hni
        · rw [if_neg h2]
          apply ih
          · rw [dictGet_dictSet_other _ _ _ _ hk]
            exact h
          · exact hni

/-! ## Renderer-state lemmas: with both caches filled, every resolver
step returns the renderer unchanged -/

/-- With the profile cached, `color_profile` reads the cache. -/
theorem colorProfileSt_cached (r : Renderer) (p : ColorProfile)
    (h : r.cachedProfile = some p) : r.colorProfileSt = (p, r) := by
  unfold Renderer.colorProfileSt
  rw [h]

/-- With the luminance cached, `has_dark_background` reads the cache. -/
theorem hasDarkBackgroundSt_cached (r : Renderer) (b : Bool)
    (h : r.cachedDark = some b) : r.hasDarkBackgroundSt = (b, r) := by
  unfold Renderer.hasDarkBackgroundSt
  rw [h]

/-- `_resolve_color_string` leaves a profile-cached renderer unchanged. -/
theorem resolveColorStringSt_snd (r : Renderer) (p : ColorProfile)
    (s : List Char) (hp : r.cachedProfile = some p) :
    (r.resolveColorStringSt s).2 = r := by
  unfold Renderer.resolveColorStringSt
  rw [colorProfileSt_cached r p hp]

/-- `CompleteColor.resolve` leaves a profile-cached renderer unchanged. -/
theorem resolveCompleteSt_snd (tc a256 a : List Char) (r : Renderer)
    (p : ColorProfile) (hp : r.cachedProfile = some p) :
    (resolveCompleteSt tc a256 a r).2 = r := by
  unfold resolveCompleteSt
  rw [colorProfileSt_cached r p hp]
  cases p
  · exact resolveColorStringSt_snd r _ tc hp
  · exact resolveColorStringSt_snd r _ a256 hp
  · exact resolveColorStringSt_snd r _ a hp
  · rfl

/-- `TerminalColor.resolve` leaves a fully cached renderer unchanged. -/
theorem resolveSt_snd (c : TerminalColor) (r : Renderer) (p : ColorProfile)
    (b : Bool) (hp : r.cachedProfile = some p) (hd : r.cachedDark = some b) :
    (c.resolveSt r).2 = r := by
  cases c with
  | noColor => rfl
  | color s => exact resolveColorStringSt_snd r p s hp
  | ansiColor n => exact resolveColorStringSt_snd r p _ hp
  | adaptive light dark =>
    show ((r.hasDarkBackgroundSt).2.resolveColorStringSt _).2 = r
    rw [hasDarkBackgroundSt_cached r b hd]
    exact resolveColorStringSt_snd r p _ hp
  | complete tc a256 a => exact resolveCompleteSt_snd tc a256 a r p hp
  | completeAdaptive ltc la256 la dtc da256 da =>
    show ((if (r.hasDarkBackgroundSt).1 then
        resolveCompleteSt dtc da256 da (r.hasDarkBackgroundSt).2
      else resolveCompleteSt ltc la256 la (r.hasDarkBackgroundSt).2)).2 = r
    rw [hasDarkBackgroundSt_cached r b hd]
    cases b
    · exact resolveCompleteSt_snd ltc la256 la r p hp
    · exact resolveCompleteSt_snd dtc da256 da r p hp

/-- Optional-color resolution step as it appears in the pipeline. -/
theorem resolveOptSt_snd (oc : Option TerminalColor) (r : Renderer)
    (p : ColorProfile) (b : Bool) (hp : r.cachedProfile = some p)
    (hd : r.cachedDark = some b) :
    (match oc with
      | some c => TerminalColor.resolveSt c r
      | none => ((some [], r) : Option (List Char) × Renderer)).2 = r := by
  cases oc with
  | none => rfl
  | some c => exact resolveSt_snd c r p b hp hd

/-- `_style_border_part` leaves a fully cached renderer unchanged. -/
theorem styleBorderPartSt_snd (r : Renderer) (txt : List Char)
    (fg bg : Option TerminalColor) (p : ColorProfile) (b : Bool)
    (hp : r.cachedProfile = some p) (hd : r.cachedDark = some b) :
    (styleBorderPartSt r txt fg bg).2 = r := by
  unfold styleBorderPartSt
  by_cases htxt : txt = []
  · rw [if_pos htxt]
  · rw [if_neg htxt]
    have h1 := resolveOptSt_snd fg r p b hp hd
    rcases hfg : (match fg with
        | some c => TerminalColor.resolveSt c r
        | none => ((some [], r) : Option (List Char) × Renderer)) with ⟨o1, r1⟩
    rw [hfg] at h1
    rw [hfg]
    dsimp only at h1 ⊢
    cases o1 with
    | none => exact h1
    | some fgE =>
      dsimp only
      rw [h1]
      have h2 := resolveOptSt_snd bg r p b hp hd
      rcases hbg : (match bg with
          | some c => TerminalColor.resolveSt c r
          | none => ((some [], r) : Option (List Char) × Renderer)) with ⟨o2, r2⟩
      rw [hbg] at h2
      rw [hbg]
      dsimp only at h2 ⊢
      cases o2 with
      | none => exact h2
      | some bgE =>
        dsimp only
        repeat' split
        all_goals exact h2

/-- `style_margin` leaves a fully cached renderer unchanged. -/
theorem styleMarginSt_snd (s : Style) (r : Renderer) (txt : List Char)
    (p : ColorProfile) (b : Bool) (hp : r.cachedProfile = some p)
    (hd : r.cachedDark = some b) :
    (styleMarginSt s r txt).2 = r := by
  unfold styleMarginSt
  cases s.getColor "margin_background" with
  | none => rfl
  | some mb =>
    dsimp only
    have h1 := resolveSt_snd mb r p b hp hd
    rcases hmb : mb.resolveSt r with ⟨o1, r1⟩
    rw [hmb] at h1
    dsimp only at h1 ⊢
    cases o1 with
    | none => exact h1
    | some bgE =>
      dsimp only
      rw [h1]
      split
      · rfl
      · split
        · rfl
        · rfl

/-- The per-row border loop leaves a fully cached renderer unchanged. -/
theorem applyBorderRows_snd (L R : List Char)
    (lf lb rf rb : Option TerminalColor) (p : ColorProfile) (bb : Bool)
    (lines : List (List Char)) :
    ∀ (r : Renderer) (i : Nat), r.cachedProfile = some p →
      r.cachedDark = some bb →
      (applyBorderRows L R lf lb rf rb r lines i).2 = r := by
  induction lines with
  | nil =>
    intro r i hp hd
    rfl
  | cons line rest ih =>
    intro r i hp hd
    unfold applyBorderRows
    split
    · dsimp only
      split
      · rename_i r1 heq
        have h := styleBorderPartSt_snd r [L.getD (i % L.length) ' '] lf lb
          p bb hp hd
        rw [heq] at h
        exact h
      · rename_i lStr r1 heq
        have h := styleBorderPartSt_snd r [L.getD (i % L.length) ' '] lf lb
          p bb hp hd
        rw [heq] at h
        dsimp only at h
        rw [h]
        split
        · rename_i r2 heq2
          split at heq2
          · have h2 := styleBorderPartSt_snd r [R.getD (i % R.length) ' ']
              rf rb p bb hp hd
            rw [heq2] at h2
            exact h2
          · simp at heq2
        · rename_i rStr r2 heq2
          split at heq2
          · have h2 := styleBorderPartSt_snd r [R.getD (i % R.length) ' ']
              rf rb p bb hp hd
            rw [heq2] at h2
            dsimp only at h2
            rw [h2]
            split
            all_goals rename_i heq3
            all_goals have h3 := ih r (i + 1) hp hd
            all_goals rw [heq3] at h3
            all_goals exact h3
          · rw [Prod.mk.injEq] at heq2
            rw [← heq2.2]
            split
            all_goals rename_i heq3
            all_goals have h3 := ih r (i + 1) hp hd
            all_goals rw [heq3] at h3
            all_goals exact h3
    · dsimp only
      split
      · rename_i r2 heq2
        split at heq2
        · have h2 := styleBorderPartSt_snd r [R.getD (i % R.length) ' ']
            rf rb p bb hp hd
          rw [heq2] at h2
          exact h2
        · simp at heq2
      · rename_i rStr r2 heq2
        split at heq2
        · have h2 := styleBorderPartSt_snd r [R.getD (i % R.length) ' ']
            rf rb p bb hp hd
          rw [heq2] at h2
          dsimp only at h2
          rw [h2]
          split
          all_goals rename_i heq3
          all_goals have h3 := ih r (i + 1) hp hd
          all_goals rw [heq3] at h3
          all_goals exact h3
        · rw [Prod.mk.injEq] at heq2
          rw [← heq2.2]
          split
          all_goals rename_i heq3
          all_goals have h3 := ih r (i + 1) hp hd
          all_goals rw [heq3] at h3
          all_goals exact h3

/-- `_apply_border` leaves a fully cached renderer unchanged. -/
theorem applyBorder_snd (s : Style) (r : Renderer) (txt : List Char)
    (p : ColorProfile) (bb : Bool) (hp : r.cachedProfile = some p)
    (hd : r.cachedDark = some bb) :
    (s.applyBorder r txt).2 = r := by
  unfold Style.applyBorder
  cases hgb : s.getBorder with
  | none => rfl
  | some bd =>
    dsimp only
    split
    · rw [if_neg (by decide)]
      split
      · rename_i r1 heq
        split at heq
        · rw [Prod.mk.injEq] at heq
          have h := heq.2
          rw [styleBorderPartSt_snd _ _ _ _ p bb hp hd] at h
          exact h.symm
        · simp at heq
      · rename_i topLines r1 heq
        have hr1 : r1 = r := by
          split at heq
          · rw [Prod.mk.injEq] at heq
            have h := heq.2
            rw [styleBorderPartSt_snd _ _ _ _ p bb hp hd] at h
            exact h.symm
          · rw [Prod.mk.injEq] at heq
            exact heq.2.symm
        rw [hr1]
        split
        · rename_i r2 heq2
          have h2 := congrArg Prod.snd heq2
          rw [applyBorderRows_snd _ _ _ _ _ _ p bb _ r 0 hp hd] at h2
          exact h2.symm
        · rename_i rowLines r2 heq2
          have h2 := congrArg Prod.snd heq2
          rw [applyBorderRows_snd _ _ _ _ _ _ p bb _ r 0 hp hd] at h2
          dsimp only at h2
          rw [← h2]
          split
          · rename_i r3 heq3
            split at heq3
            · rw [Prod.mk.injEq] at heq3
              have h3 := heq3.2
              rw [styleBorderPartSt_snd _ _ _ _ p bb hp hd] at h3
              exact h3.symm
            · simp at heq3
          · rename_i botLines r3 heq3
            have hr3 : r3 = r := by
              split at heq3
              · rw [Prod.mk.injEq] at heq3
                have h3 := heq3.2
                rw [styleBorderPartSt_snd _ _ _ _ p bb hp hd] at h3
                exact h3.symm
              · rw [Prod.mk.injEq] at heq3
                exact heq3.2.symm
            rw [hr3]
    · split
      · rfl
      · split
        · rename_i r1 heq
          split at heq
          · rw [Prod.mk.injEq] at heq
            have h := heq.2
            rw [styleBorderPartSt_snd _ _ _ _ p bb hp hd] at h
            exact h.symm
          · simp at heq
        · rename_i topLines r1 heq
          have hr1 : r1 = r := by
            split at heq
            · rw [Prod.mk.injEq] at heq
              have h := heq.2
              rw [styleBorderPartSt_snd _ _ _ _ p bb hp hd] at h
              exact h.symm
            · rw [Prod.mk.injEq] at heq
              exact heq.2.symm
          rw [hr1]
          split
          · rename_i r2 heq2
            have h2 := congrArg Prod.snd heq2
            rw [applyBorderRows_snd _ _ _ _ _ _ p bb _ r 0 hp hd] at h2
            exact h2.symm
          · rename_i rowLines r2 heq2
            have h2 := congrArg Prod.snd heq2
            rw [applyBorderRows_snd _ _ _ _ _ _ p bb _ r 0 hp hd] at h2
            dsimp only at h2
            rw [← h2]
            split
            · rename_i r3 heq3
              split at heq3
              · rw [Prod.mk.injEq] at heq3
                have h3 := heq3.2
                rw [styleBorderPartSt_snd _ _ _ _ p bb hp hd] at h3
                exact h3.symm
              · simp at heq3
            · rename_i botLines r3 heq3
              have hr3 : r3 = r := by
                split at heq3
                · rw [Prod.mk.injEq] at heq3
                  have h3 := heq3.2
                  rw [styleBorderPartSt_snd _ _ _ _ p bb hp hd] at h3
                  exact h3.symm
                · rw [Prod.mk.injEq] at heq3
                  exact heq3.2.symm
              rw [hr3]

/-- `_apply_margins` leaves a fully cached renderer unchanged. -/
theorem applyMargins_snd (s : Style) (r : Renderer) (txt : List Char)
    (p : ColorProfile) (bb : Bool) (hp : r.cachedProfile = some p)
    (hd : r.cachedDark = some bb) :
    (s.applyMargins r txt).2 = r := by
  unfold Style.applyMargins
  dsimp only
  split
  · rename_i r1 heq
    split at heq
    · rw [Prod.mk.injEq] at heq
      have h := heq.2
      rw [styleMarginSt_snd _ _ _ p bb hp hd] at h
      exact h.symm
    · simp at heq
  · rename_i txt1 r1 heq
    have hr1 : r1 = r := by
      split at heq
      · rw [Prod.mk.injEq] at heq
        have h := heq.2
        rw [styleMarginSt_snd _ _ _ p bb hp hd] at h
        exact h.symm
      · rw [Prod.mk.injEq] at heq
        exact heq.2.symm
    rw [hr1]
    split
    · rename_i r2 heq2
      split at heq2
      · rw [Prod.mk.injEq] at heq2
        have h2 := heq2.2
        rw [styleMarginSt_snd _ _ _ p bb hp hd] at h2
        exact h2.symm
      · simp at heq2
    · rename_i txt2 r2 heq2
      have hr2 : r2 = r := by
        split at heq2
        · rw [Prod.mk.injEq] at heq2
          have h2 := heq2.2
          rw [styleMarginSt_snd _ _ _ p bb hp hd] at h2
          exact h2.symm
        · rw [Prod.mk.injEq] at heq2
          exact heq2.2.symm
      rw [hr2]
      split
      · split
        · rename_i r3 heq3
          have h3 := congrArg Prod.snd heq3
          rw [styleMarginSt_snd _ _ _ p bb hp hd] at h3
          exact h3.symm
        · rename_i emptyLine r3 heq3
          have h3 := congrArg Prod.snd heq3
          rw [styleMarginSt_snd _ _ _ p bb hp hd] at h3
          dsimp only at h3
          rw [← h3]
      · rfl

/-- The full render pipeline leaves a fully cached renderer unchanged. -/
theorem renderJoined_snd (s : Style) (r : Renderer) (t : List Char)
    (p : ColorProfile) (bb : Bool) (hp : r.cachedProfile = some p)
    (hd : r.cachedDark = some bb) :
    (s.renderJoined r t).2 = r := by
  unfold Style.renderJoined
  dsimp only
  split
  · rfl
  · split
    · rename_i r1 heq
      have h : r1 = r := by
        cases hc : s.getColor "foreground" with
        | none =>
          rw [hc] at heq
          simp at heq
        | some c =>
          rw [hc] at heq
          dsimp only at heq
          have h2 := congrArg Prod.snd heq
          rw [resolveSt_snd c r p bb hp hd] at h2
          exact h2.symm
      exact h
    · rename_i fgEsc r1 heq
      have hr1 : r1 = r := by
        cases hc : s.getColor "foreground" with
        | none =>
          rw [hc] at heq
          dsimp only at heq
          rw [Prod.mk.injEq] at heq
          exact heq.2.symm
        | some c =>
          rw [hc] at heq
          dsimp only at heq
          have h2 := congrArg Prod.snd heq
          rw [resolveSt_snd c r p bb hp hd] at h2
          exact h2.symm
      rw [hr1]
      split
      · rename_i r2 heq2
        have h : r2 = r := by
          cases hc : s.getColor "background" with
          | none =>
            rw [hc] at heq2
            simp at heq2
          | some c =>
            rw [hc] at heq2
            dsimp only at heq2
            have h2 := congrArg Prod.snd heq2
            rw [resolveSt_snd c r p bb hp hd] at h2
            exact h2.symm
        exact h
      · rename_i bgEsc r2 heq2
        have hr2 : r2 = r := by
          cases hc : s.getColor "background" with
          | none =>
            rw [hc] at heq2
            dsimp only at heq2
            rw [Prod.mk.injEq] at heq2
            exact heq2.2.symm
          | some c =>
            rw [hc] at heq2
            dsimp only at heq2
            have h2 := congrArg Prod.snd heq2
            rw [resolveSt_snd c r p bb hp hd] at h2
            exact h2.symm
        rw [hr2]
        split
        · rfl
        · split
          · rename_i r3 heq3
            have h3 := congrArg Prod.snd heq3
            rw [applyBorder_snd _ _ _ p bb hp hd] at h3
            exact h3.symm
          · rename_i strB r3 heq3
            have h3 := congrArg Prod.snd heq3
            rw [applyBorder_snd _ _ _ p bb hp hd] at h3
            dsimp only at h3
            rw [← h3]
            split
            · rename_i r4 heq4
              have h4 := congrArg Prod.snd heq4
              rw [applyMargins_snd _ _ _ p bb hp hd] at h4
              exact h4.symm
            · rename_i strM r4 heq4
              have h4 := congrArg Prod.snd heq4
              rw [applyMargins_snd _ _ _ p bb hp hd] at h4
              dsimp only at h4
              rw [← h4]

/-- `sep.join` on a list with a nonempty tail peels the head. -/
theorem joinSep_cons (sep a : List Char) (rest : List (List Char))
    (h : rest ≠ []) :
    joinSep sep (a :: rest) = a ++ sep ++ joinSep sep rest := by
  cases rest with
  | nil => exact absurd rfl h
  | cons b t => rfl

end Lipgloss

open Lipgloss

/-- C3: `Color("#FF0000")` resolves at TrueColor to the true-color
escape; at the ANSI16 profile to the basic red escape, the bright
variant (91) being selected exactly when the channel sum of the
quantized 256-palette color exceeds 382 (here the sum is 255, so the
non-bright 31 is produced); and at ASCII to the empty string. -/
theorem c3_color_resolution :
    resolveColorStringPure .trueColor (pys "#FF0000") =
      some (pys "\x1b[38;2;255;0;0m") ∧
    resolveColorStringPure .ansi (pys "#FF0000") =
      some (if ansi256CubeChannelSum ((rgbToAnsi256 255 0 0 : Nat) : Int) > 382
            then pys "\x1b[91m" else pys "\x1b[31m") ∧
    ansi256CubeChannelSum ((rgbToAnsi256 255 0 0 : Nat) : Int) = 255 ∧
    resolveColorStringPure .ascii (pys "#FF0000") = some (pys "") := by
  refine ⟨by decide, by decide, by decide, by decide⟩

/-- C5 (code bug): `_fg_to_bg_escape` rewrites every parameter equal to
30..37 or 90..97, including the numeric payload of a 256-color escape.
The foreground escape of `Color("35")` at ANSI256 is `ESC[38;5;35m`,
whose background derivation should keep the payload 35, but the code
produces `ESC[48;5;45m`, changing the color. -/
theorem c5_fg_bg_payload_corrupted :
    resolveColorStringPure .ansi256 (pys "35") = some (pys "\x1b[38;5;35m") ∧
    fgToBgEscape (pys "\x1b[38;5;35m") = pys "\x1b[48;5;45m" ∧
    pys "\x1b[48;5;45m" ≠ pys "\x1b[48;5;35m" := by
  refine ⟨by decide, by decide, by decide⟩

/-- C7 counterexample: `StringData.at` guards only the upper bounds, so a
negative row index falls through to Python list indexing, which wraps:
on the matrix `[["a"]]` the lookup `at(-1, 0)` returns the stored cell
`"a"`, not the empty string the claim requires for every out-of-bounds
index pair. -/
theorem c7_negative_index_counterexample :
    StringData.at [["a"]] (-1) 0 = some "a" ∧ some "a" ≠ (some "" : Option String) := by
  constructor
  · rfl
  · decide

/-- C7 amended: out-of-bounds lookups with nonnegative indices return
the empty string — `StringData.at` returns `""` whenever the row index
is at least the number of rows, or the row index is in range but the
column index is at least that row's length; and `Filter.at` returns
`""` whenever `row` is not the filtered position of any
predicate-passing row (negative or too large). -/
theorem c7_out_of_bounds_empty :
    (∀ (rows : List (List String)) (row col : Int),
      (rows.length : Int) ≤ row → StringData.at rows row col = some "") ∧
    (∀ (rows : List (List String)) (row : Nat) (col : Int)
      (h : row < rows.length),
      ((rows.get ⟨row, h⟩).length : Int) ≤ col →
      StringData.at rows (row : Int) col = some "") ∧
    (∀ (rows : List (List String)) (pred : Nat → Bool) (row col : Int),
      row < 0 ∨ (Filter.rowCount rows pred : Int) ≤ row →
      Filter.at rows pred row col = some "") := by
  refine ⟨?_, ?_, ?_⟩
  · intro rows row col h
    unfold StringData.at
    simp only [ge_iff_le, h, if_true]
  · intro rows row col h hcol
    unfold StringData.at
    have h1 : ¬(rows.length : Int) ≤ (row : Int) := by push_cast; omega
    simp only [ge_iff_le, h1, if_false]
    rw [pyGet_nonneg rows row (by positivity) (by push_cast; omega)]
    simp only [Int.toNat_ofNat]
    rw [List.get?_eq_get h]
    simp only [ge_iff_le, hcol, if_true]
  · intro rows pred row col h
    unfold Filter.at
    apply filterAtGo_out_of_range
    rcases h with h | h
    · left; omega
    · right
      unfold Filter.rowCount at h
      omega

/-- C7 witness: concrete out-of-bounds lookups on a 2-row matrix. -/
theorem c7_out_of_bounds_empty_witness :
    StringData.at [["a"], ["b", "c"]] 5 0 = some "" ∧
    StringData.at [["a"], ["b", "c"]] ((1 : Nat) : Int) 7 = some "" ∧
    Filter.at [["a"], ["b", "c"]] (fun i => i == 0) 3 0 = some "" :=
  ⟨c7_out_of_bounds_empty.1 [["a"], ["b", "c"]] 5 0 (by decide),
   c7_out_of_bounds_empty.2.1 [["a"], ["b", "c"]] 1 7 (by decide) (by decide),
   c7_out_of_bounds_empty.2.2 [["a"], ["b", "c"]] (fun i => i == 0) 3 0
     (Or.inr (by decide))⟩

/-- C4 counterexample: the expand loop skips every column whose current
width equals its `fixed_width` field, which is 0 for non-fixed columns.
First table (two non-fixed columns, initial widths `[0, 3]`, border
overhead 3, target 8): column 0 sits at the minimum width 0 yet both
extra cells go to column 1, yielding `[0, 5]` where the claim's
"first column currently at the minimum" rule predicts `[2, 3]`.
Second table (a single fixed-width-5 column, border overhead 2,
target 9): with no expandable candidate the default index 0 is
incremented anyway, so the fixed column ends at width 7 ≠ 5,
contradicting "every fixed-width column keeps exactly its fixed
width". -/
theorem c4_expand_counterexample :
    (expandTableWidth [⟨0, 0, 0, 0, 0, 0⟩, ⟨1, 3, 3, 3, 0, 0⟩] true 8 =
        some [0, 5] ∧
      (some [0, 5] : Option (List Nat)) ≠ some [2, 3]) ∧
    (expandTableWidth [⟨0, 5, 5, 5, 0, 5⟩] true 9 = some [7] ∧
      colFix [(⟨0, 5, 5, 5, 0, 5⟩ : ResizerColumn)] 0 = 5 ∧ (7 : Nat) ≠ 5) := by
  refine ⟨⟨by decide, by decide⟩, by decide, by decide, by decide⟩

/-- C1 counterexample, two independent failures of the claim as stated
for arbitrary text and integer padding:
(1) tabs: for `t = "\t" + ESC + "[0000000000 m"` the content width is 1
(the tab counts one cell; the malformed escape is completed by the
space and strips away), so `w = 1, p = 0` satisfies the premise, but
tab expansion makes the line wider than the wrap width, the word wrap
then splits the escape at its space byte, and the resulting lines have
visible width 12, not 1;
(2) negative padding: for `t = "ab", w = 1, p = -1` the premise
`w ≥ content_width + p` holds, yet the output line keeps width 2. -/
theorem c1_box_sizing_counterexample :
    (sizeWidth (pys "\t\x1b[0000000000 m") = 1 ∧
      (sizeWidth (pys "\t\x1b[0000000000 m") : Int) + 0 ≤ 1 ∧
      ((c1Style 1 0 0).render ⟨some .trueColor, some true, .trueColor⟩
          [pys "\t\x1b[0000000000 m"]).1.map
        (fun out => (splitNl out).map visWidth) = some [12, 12] ∧
      (12 : Nat) ≠ 1) ∧
    (sizeWidth (pys "ab") = 2 ∧
      (sizeWidth (pys "ab") : Int) + (-1) ≤ 1 ∧
      ((c1Style 1 (-1) 0).render ⟨some .trueColor, some true, .trueColor⟩
          [pys "ab"]).1.map
        (fun out => (splitNl out).map visWidth) = some [2] ∧
      (2 : Nat) ≠ 1) := by
  exact ⟨⟨by decide, by decide, by decide, by decide⟩,
    ⟨by decide, by decide, by decide, by decide⟩⟩

/-- C1 amended: for every tab-free text `t`, nonnegative padding `p`
and width `w` with `w ≥ content_width(t) + p`, and every horizontal
alignment fraction, every line of
`Style().width(w).padding_left(p).align_horizontal(f).render(t)` has
visible width exactly `w`, and the receiver style and the renderer are
returned unchanged. -/
theorem c1_box_sizing (t : List Char) (w p : Int) (f : ℚ) (ren : Renderer)
    (htab : '\t' ∉ t) (hp : 0 ≤ p) (hw : (sizeWidth t : Int) + p ≤ w) :
    ∃ out, (c1Style w p f).render ren [t] = (some out, c1Style w p f, ren) ∧
      ∀ line ∈ splitNl out, (visWidth line : Int) = w := by
  have hrj := renderJoined_c1 w p f ren t
  rw [maybeConvertTabs_no_tab t 4 false htab] at hrj
  dsimp only at hrj
  have hb3 : ∀ l ∈ splitNl (replaceCRLF t), visWidth l ≤ sizeWidth t :=
    replaceCRLF_line_le t
  have hstr5 : (if 0 < w then
      (if 0 < w - p - 0 then wordWrap (replaceCRLF t) (w - p - 0)
        else replaceCRLF t)
    else replaceCRLF t) = replaceCRLF t := by
    by_cases h1 : 0 < w
    · rw [if_pos h1]
      by_cases h2 : 0 < w - p - 0
      · rw [if_pos h2]
        apply wordWrap_noop
        intro l hl
        have := hb3 l hl
        omega
      · rw [if_neg h2]
    · rw [if_neg h1]
  rw [hstr5] at hrj
  have hnl3 : ∀ l ∈ splitNl (replaceCRLF t), '\n' ∉ l := splitNl_no_nl _
  have hlines7 : splitNl (if 0 < p then
        joinNl ((splitNl (replaceCRLF t)).map (fun l => pyRep p ' ' ++ l))
      else replaceCRLF t) =
      (splitNl (replaceCRLF t)).map (fun l => pyRep p ' ' ++ l) := by
    by_cases h1 : 0 < p
    · rw [if_pos h1]
      apply splitNl_joinNl
      · intro hcon
        exact splitNl_ne_nil _ (List.map_eq_nil_iff.mp hcon)
      · intro l hl
        obtain ⟨x, hx, rfl⟩ := List.mem_map.mp hl
        intro hmem
        rcases List.mem_append.mp hmem with h2 | h2
        · exact pyRep_no_nl p h2
        · exact hnl3 x hx h2
    · rw [if_neg h1]
      have hp0 : p = 0 := by omega
      subst hp0
      simp only [pyRep_zero, List.nil_append, List.map_id']
  have hb7 : ∀ l ∈ splitNl (if 0 < p then
        joinNl ((splitNl (replaceCRLF t)).map (fun l => pyRep p ' ' ++ l))
      else replaceCRLF t), (visWidth l : Int) ≤ w := by
    rw [hlines7]
    intro l hl
    obtain ⟨x, hx, rfl⟩ := List.mem_map.mp hl
    rw [show pyRep p ' ' ++ x = List.replicate p.toNat ' ' ++ x from rfl,
      visWidth_spaces_append]
    have := hb3 x hx
    omega
  set str7 := (if 0 < p then
      joinNl ((splitNl (replaceCRLF t)).map (fun l => pyRep p ' ' ++ l))
    else replaceCRLF t) with hstr7def
  refine ⟨(if ¬countNl str7 = 0 ∨ ¬w = 0 then alignTextHorizontal str7 f w none
    else str7), ?_, ?_⟩
  · unfold Style.render
    have hval : (c1Style w p f).value = [] := rfl
    rw [hval]
    simp only [ne_eq, not_true_eq_false, if_false]
    rw [show joinSep (pys " ") [t] = t from rfl, hrj]
  · by_cases hcond : ¬countNl str7 = 0 ∨ ¬w = 0
    · rw [if_pos hcond]
      intro line hline
      have hal := alignTextHorizontal_widths str7 f w line hline
      have hwid : listMaxNat ((splitNl str7).map visWidth) ≤ w.toNat := by
        apply listMaxNat_le
        intro x hxm
        obtain ⟨l, hl, rfl⟩ := List.mem_map.mp hxm
        have := hb7 l hl
        omega
      rw [hal, Nat.max_eq_right hwid]
      omega
    · rw [if_neg hcond]
      push_neg at hcond
      obtain ⟨hcnt, hw0⟩ := hcond
      intro line hline
      have hs : splitNl str7 = [str7] := splitNl_single str7 (by
        intro hmem
        exact List.count_eq_zero.mp hcnt hmem)
      rw [hs] at hline
      have hlq := List.mem_singleton.mp hline
      rw [hlq]
      have h1 := hb7 str7 (by rw [hs]; exact List.mem_singleton.mpr rfl)
      omega

/-- C1 witness: width 10, left padding 2, centred, two-line text of
content width 5. -/
theorem c1_box_sizing_witness :
    ∃ out, (c1Style 10 2 ratHalf).render
        ⟨some .trueColor, some true, .trueColor⟩ [pys "hi\nthere"] =
      (some out, c1Style 10 2 ratHalf,
        ⟨some .trueColor, some true, .trueColor⟩) ∧
      ∀ line ∈ splitNl out, (visWidth line : Int) = 10 :=
  c1_box_sizing (pys "hi\nthere") 10 2 ratHalf
    ⟨some .trueColor, some true, .trueColor⟩ (by decide) (by decide) (by decide)

/-- C2 counterexample: at the alignment fraction 1/4 the code takes the
left-alignment branch and puts the whole 4-cell gap on the right:
aligning `"a"` to width 5 yields `"a    "`, while the claim's
`round(gap × f)` split (1 cell on one side, 3 on the other) would give
`" a   "` or `"   a "`. -/
theorem c2_fractional_alignment_counterexample :
    ratQuarter = 1 / 4 ∧
    alignTextHorizontal (pys "a") ratQuarter 5 none = pys "a    " ∧
    pys "a    " ≠ pys " a   " ∧
    pys "a    " ≠ pys "   a " := by
  refine ⟨ratQuarter_eq, by decide, by decide, by decide⟩

/-- C2 amended: horizontal alignment normalizes every line to the width
of the widest line (or to the set width if larger) by adding space
padding; an alignment fraction strictly between 0 and 1 other than
exactly 1/2 behaves as left alignment (the whole gap goes to the
right); at exactly 1/2 the gap is split as `⌊gap/2⌋` spaces on the left
and the remainder on the right. -/
theorem c2_align_normalization :
    ratHalf = 1 / 2 ∧
    (∀ (s : List Char) (pos : ℚ) (w : Int),
      ∀ l ∈ splitNl (alignTextHorizontal s pos w none),
        visWidth l = max (listMaxNat ((splitNl s).map visWidth)) w.toNat) ∧
    (∀ (s : List Char) (pos : ℚ) (w : Int), 0 < pos → pos < 1 → pos ≠ ratHalf →
      alignTextHorizontal s pos w none = alignTextHorizontal s 0 w none) ∧
    (∀ (s : List Char) (w : Int),
      splitNl (alignTextHorizontal s ratHalf w none) =
        (splitNl s).map (fun line =>
          let widest := listMaxNat ((splitNl s).map visWidth)
          let short0 : Int := (widest : Int) - (visWidth line : Int)
          let short : Int := short0 +
            max 0 (w - (short0 + (visWidth line : Int)))
          if short ≤ 0 then line
          else pyRep (short.fdiv 2) ' ' ++ line ++
            pyRep (short - short.fdiv 2) ' ')) :=
  ⟨ratHalf_eq, alignTextHorizontal_widths,
    fun s pos w h0 h1 hh =>
      alignTextHorizontal_frac_left s pos w h0 h1 (by rw [← ratHalf_eq]; exact hh),
    alignTextHorizontal_center⟩

/-- C2 witness: concrete instances of the two hypothesis-bearing parts. -/
theorem c2_align_normalization_witness :
    visWidth (pys "a ") =
      max (listMaxNat ((splitNl (pys "a\nbc")).map visWidth)) (0 : Int).toNat ∧
    alignTextHorizontal (pys "a") ratQuarter 5 none =
      alignTextHorizontal (pys "a") 0 5 none :=
  ⟨c2_align_normalization.2.1 (pys "a\nbc") ratQuarter 0 (pys "a ") (by decide),
   c2_align_normalization.2.2.1 (pys "a") ratQuarter 5 (by decide) (by decide)
     (by decide)⟩

/-- C4 amended: for every column set whose natural total width
(initial column widths plus border overhead) is at most the requested
width `W` — with `W` within the loop's `2^31 - 1` sentinel — and which
has at least one non-fixed column of positive initial width, the
expand optimizer returns widths summing (with border overhead) to
exactly `W`; every fixed-width column keeps exactly its fixed width;
and extra cells go only to non-fixed columns of positive width (a
non-fixed column whose initial width is 0 never grows). -/
theorem c4_expand_width_convergence (cols : List ResizerColumn) (bc : Bool)
    (W : Nat) (hBig : W ≤ 2 ^ 31 - 1)
    (hnat : (maxColumnWidths cols).sum + totalHorizontalBorder cols bc ≤ W)
    (helig : ∃ j, j < cols.length ∧ colFix cols j = 0 ∧
      0 < (maxColumnWidths cols).getD j 0) :
    ∃ final, expandTableWidth cols bc W = some final ∧
      final.sum + totalHorizontalBorder cols bc = W ∧
      final.length = cols.length ∧
      (∀ j, j < cols.length → colFix cols j ≠ 0 →
        final.getD j 0 = colFix cols j) ∧
      (∀ j, j < cols.length → colFix cols j = 0 →
        (maxColumnWidths cols).getD j 0 = 0 → final.getD j 0 = 0) := by
  have hlen : (maxColumnWidths cols).length = cols.length :=
    maxColumnWidths_length cols
  obtain ⟨final, hfin, hsum, hflen, hffix, hfzero⟩ :=
    expandLoopAux_spec cols bc W hBig (W + 1) (maxColumnWidths cols)
      hlen hnat (by omega)
      (fun j hj hfix => maxColumnWidths_getD_fixed cols j hj hfix)
      helig
  refine ⟨final, hfin, hsum, by omega, ?_, hfzero⟩
  intro j hj hfix
  rw [hffix j hj hfix]
  exact maxColumnWidths_getD_fixed cols j hj hfix

/-- C4 witness: a fixed-width-6 column and a non-fixed column of
initial width 2 with border overhead 3 (natural width 11) expanded to
target width 14. -/
theorem c4_expand_width_convergence_witness :
    ∃ final,
      expandTableWidth [⟨0, 1, 2, 2, 0, 0⟩, ⟨1, 4, 4, 4, 0, 6⟩] true 14 =
        some final ∧
      final.sum +
        totalHorizontalBorder [⟨0, 1, 2, 2, 0, 0⟩, ⟨1, 4, 4, 4, 0, 6⟩] true = 14 ∧
      final.length = 2 ∧
      (∀ j, j < 2 → colFix [⟨0, 1, 2, 2, 0, 0⟩, ⟨1, 4, 4, 4, 0, 6⟩] j ≠ 0 →
        final.getD j 0 = colFix [⟨0, 1, 2, 2, 0, 0⟩, ⟨1, 4, 4, 4, 0, 6⟩] j) ∧
      (∀ j, j < 2 → colFix [⟨0, 1, 2, 2, 0, 0⟩, ⟨1, 4, 4, 4, 0, 6⟩] j = 0 →
        (maxColumnWidths [⟨0, 1, 2, 2, 0, 0⟩, ⟨1, 4, 4, 4, 0, 6⟩]).getD j 0 = 0 →
        final.getD j 0 = 0) :=
  c4_expand_width_convergence [⟨0, 1, 2, 2, 0, 0⟩, ⟨1, 4, 4, 4, 0, 6⟩] true 14
    (by decide) (by decide) ⟨0, by decide, by decide, by decide⟩

/-- C6: the CSS-shorthand setters `padding(...)` and `margin(...)`
succeed for exactly 1, 2, 3 or 4 integer arguments and raise otherwise;
on success the per-side getters of the result read back exactly
`_expand_sides(values)`, which expands in CSS order: one value to all
four sides, two to vertical/horizontal, three to top, horizontal,
bottom, four as given (top, right, bottom, left). -/
theorem c6_css_shorthand (s : Style) (values : List Int) :
    ((s.padding values).isSome ↔ 1 ≤ values.length ∧ values.length ≤ 4) ∧
    ((s.margin values).isSome ↔ 1 ≤ values.length ∧ values.length ≤ 4) ∧
    (∀ s2, s.padding values = some s2 →
      expandSides values = some (s2.getPaddingTop, s2.getPaddingRight,
        s2.getPaddingBottom, s2.getPaddingLeft)) ∧
    (∀ s2, s.margin values = some s2 →
      expandSides values = some (s2.getMarginTop, s2.getMarginRight,
        s2.getMarginBottom, s2.getMarginLeft)) ∧
    (∀ a : Int, expandSides [a] = some (a, a, a, a)) ∧
    (∀ a b : Int, expandSides [a, b] = some (a, b, a, b)) ∧
    (∀ a b c : Int, expandSides [a, b, c] = some (a, b, c, b)) ∧
    (∀ a b c d : Int, expandSides [a, b, c, d] = some (a, b, c, d)) := by
  refine ⟨?_, ?_, ?_, ?_, fun a => rfl, fun a b => rfl, fun a b c => rfl,
    fun a b c d => rfl⟩
  · simp only [Style.padding, isSome_map_expandSides]
  · simp only [Style.margin, isSome_map_expandSides]
  · intro s2 hps
    cases hex : expandSides values with
    | none =>
      rw [Style.padding, hex] at hps
      exact Option.noConfusion hps
    | some tr =>
      obtain ⟨t, r, b, l⟩ := tr
      rw [Style.padding, hex] at hps
      rw [Option.map_some'] at hps
      injection hps with hps
      subst hps
      have ht : ((((s.setProp "padding_top" (.pInt t)).setProp
          "padding_right" (.pInt r)).setProp
          "padding_bottom" (.pInt b)).setProp
          "padding_left" (.pInt l)).getPaddingTop = t := by
        unfold Style.getPaddingTop
        rw [getInt_setProp_other _ _ _ _ _ (by decide),
          getInt_setProp_other _ _ _ _ _ (by decide),
          getInt_setProp_other _ _ _ _ _ (by decide),
          getInt_setProp_same]
      have hr : ((((s.setProp "padding_top" (.pInt t)).setProp
          "padding_right" (.pInt r)).setProp
          "padding_bottom" (.pInt b)).setProp
          "padding_left" (.pInt l)).getPaddingRight = r := by
        unfold Style.getPaddingRight
        rw [getInt_setProp_other _ _ _ _ _ (by decide),
          getInt_setProp_other _ _ _ _ _ (by decide),
          getInt_setProp_same]
      have hb : ((((s.setProp "padding_top" (.pInt t)).setProp
          "padding_right" (.pInt r)).setProp
          "padding_bottom" (.pInt b)).setProp
          "padding_left" (.pInt l)).getPaddingBottom = b := by
        unfold Style.getPaddingBottom
        rw [getInt_setProp_other _ _ _ _ _ (by decide),
          getInt_setProp_same]
      have hl : ((((s.setProp "padding_top" (.pInt t)).setProp
          "padding_right" (.pInt r)).setProp
          "padding_bottom" (.pInt b)).setProp
          "padding_left" (.pInt l)).getPaddingLeft = l := by
        unfold Style.getPaddingLeft
        rw [getInt_setProp_same]
      dsimp only
      rw [ht, hr, hb, hl]
  · intro s2 hps
    cases hex : expandSides values with
    | none =>
      rw [Style.margin, hex] at hps
      exact Option.noConfusion hps
    | some tr =>
      obtain ⟨t, r, b, l⟩ := tr
      rw [Style.margin, hex] at hps
      rw [Option.map_some'] at hps
      injection hps with hps
      subst hps
      have ht : ((((s.setProp "margin_top" (.pInt t)).setProp
          "margin_right" (.pInt r)).setProp
          "margin_bottom" (.pInt b)).setProp
          "margin_left" (.pInt l)).getMarginTop = t := by
        unfold Style.getMarginTop
        rw [getInt_setProp_other _ _ _ _ _ (by decide),
          getInt_setProp_other _ _ _ _ _ (by decide),
          getInt_setProp_other _ _ _ _ _ (by decide),
          getInt_setProp_same]
      have hr : ((((s.setProp "margin_top" (.pInt t)).setProp
          "margin_right" (.pInt r)).setProp
          "margin_bottom" (.pInt b)).setProp
          "margin_left" (.pInt l)).getMarginRight = r := by
        unfold Style.getMarginRight
        rw [getInt_setProp_other _ _ _ _ _ (by decide),
          getInt_setProp_other _ _ _ _ _ (by decide),
          getInt_setProp_same]
      have hb : ((((s.setProp "margin_top" (.pInt t)).setProp
          "margin_right" (.pInt r)).setProp
          "margin_bottom" (.pInt b)).setProp
          "margin_left" (.pInt l)).getMarginBottom = b := by
        unfold Style.getMarginBottom
        rw [getInt_setProp_other _ _ _ _ _ (by decide),
          getInt_setProp_same]
      have hl : ((((s.setProp "margin_top" (.pInt t)).setProp
          "margin_right" (.pInt r)).setProp
          "margin_bottom" (.pInt b)).setProp
          "margin_left" (.pInt l)).getMarginLeft = l := by
        unfold Style.getMarginLeft
        rw [getInt_setProp_same]
      dsimp only
      rw [ht, hr, hb, hl]

/-- C6 witness: three-value padding on the empty style reads back as
top, horizontal, bottom; two-value margin as vertical/horizontal; zero
and five arguments fail. -/
theorem c6_css_shorthand_witness :
    (emptyStyle.padding [1, 2, 3]).isSome = true ∧
    (emptyStyle.padding []).isSome = false ∧
    (emptyStyle.margin [1, 2, 3, 4, 5]).isSome = false ∧
    (∀ s2, emptyStyle.padding [1, 2, 3] = some s2 →
      expandSides [1, 2, 3] = some (s2.getPaddingTop, s2.getPaddingRight,
        s2.getPaddingBottom, s2.getPaddingLeft)) ∧
    expandSides [1, 2, 3] = some (1, 2, 3, 2) := by
  have h := c6_css_shorthand emptyStyle [1, 2, 3]
  refine ⟨?_, by decide, by decide, h.2.2.1, h.2.2.2.2.2.2.1 1 2 3⟩
  rw [h.1]
  exact ⟨by decide, by decide⟩

/-- C8: `inherit(parent)` builds a new style (the attached string, and
by purity of the embedding the receiver and the parent, are untouched)
in which a key already set keeps the receiver's value, the eight
padding/margin keys are never copied from the parent, and any other key
unset in the receiver receives the parent's value for it (absent stays
absent). -/
theorem c8_inherit (s parent : Style) (k : String) :
    ((s.inherit parent).value = s.value) ∧
    (∀ v, s.get? k = some v → (s.inherit parent).get? k = some v) ∧
    (noInheritKeys.contains k = true →
      (s.inherit parent).get? k = s.get? k) ∧
    (s.get? k = none → noInheritKeys.contains k = false →
      (s.inherit parent).get? k = parent.get? k) := by
  refine ⟨rfl, ?_, ?_, ?_⟩
  · intro v h
    exact inheritProps_present parent.props s.props k v h
  · intro h
    exact inheritProps_noInherit parent.props s.props k h
  · intro h1 h2
    exact inheritProps_absent parent.props s.props k h1 h2

/-- C8 witness: with `s = {bold: true}` and
`parent = {bold: false, width: 3, margin_top: 7}`, inheriting keeps
bold true, copies width 3, and leaves margin_top unset. -/
theorem c8_inherit_witness :
    ((Style.mk [("bold", PropValue.pBool true)] []).inherit
      (Style.mk [("bold", PropValue.pBool false), ("width", PropValue.pInt 3),
        ("margin_top", PropValue.pInt 7)] [])).get? "bold" =
      some (PropValue.pBool true) ∧
    ((Style.mk [("bold", PropValue.pBool true)] []).inherit
      (Style.mk [("bold", PropValue.pBool false), ("width", PropValue.pInt 3),
        ("margin_top", PropValue.pInt 7)] [])).get? "width" =
      some (PropValue.pInt 3) ∧
    ((Style.mk [("bold", PropValue.pBool true)] []).inherit
      (Style.mk [("bold", PropValue.pBool false), ("width", PropValue.pInt 3),
        ("margin_top", PropValue.pInt 7)] [])).get? "margin_top" = none := by
  refine ⟨?_, ?_, ?_⟩
  · exact (c8_inherit (Style.mk [("bold", PropValue.pBool true)] [])
      (Style.mk [("bold", PropValue.pBool false), ("width", PropValue.pInt 3),
        ("margin_top", PropValue.pInt 7)] []) "bold").2.1
      (PropValue.pBool true) rfl
  · exact ((c8_inherit (Style.mk [("bold", PropValue.pBool true)] [])
      (Style.mk [("bold", PropValue.pBool false), ("width", PropValue.pInt 3),
        ("margin_top", PropValue.pInt 7)] []) "width").2.2.2 rfl
      (by decide)).trans rfl
  · exact ((c8_inherit (Style.mk [("bold", PropValue.pBool true)] [])
      (Style.mk [("bold", PropValue.pBool false), ("width", PropValue.pInt 3),
        ("margin_top", PropValue.pInt 7)] []) "margin_top").2.2.1
      (by decide)).trans rfl

/-- C9: purity of render with the resolver state fixed (both renderer
caches filled): the returned style is the receiver itself (so every
getter reads the same before and after), the renderer comes back
unchanged, and a second call from the post-state returns the identical
result. -/
theorem c9_render_pure (s : Style) (ren : Renderer) (p : ColorProfile)
    (b : Bool) (strings : List (List Char))
    (hp : ren.cachedProfile = some p) (hd : ren.cachedDark = some b) :
    (s.render ren strings).2.1 = s ∧
    (s.render ren strings).2.2 = ren ∧
    s.render ((s.render ren strings).2.2) strings = s.render ren strings := by
  refine ⟨rfl, ?_, ?_⟩
  · exact renderJoined_snd s ren _ p b hp hd
  · have h2 : (s.render ren strings).2.2 = ren :=
      renderJoined_snd s ren _ p b hp hd
    rw [h2]

/-- C9 witness: a true-color foreground style rendered twice on a
cached true-color renderer. -/
theorem c9_render_pure_witness :
    ((Style.mk [("foreground",
        PropValue.pColor (TerminalColor.color (pys "#ff0000")))] []).render
      ⟨some ColorProfile.trueColor, some true, ColorProfile.trueColor⟩
      [pys "hi"]).2.1 =
      Style.mk [("foreground",
        PropValue.pColor (TerminalColor.color (pys "#ff0000")))] [] ∧
    ((Style.mk [("foreground",
        PropValue.pColor (TerminalColor.color (pys "#ff0000")))] []).render
      ⟨some ColorProfile.trueColor, some true, ColorProfile.trueColor⟩
      [pys "hi"]).2.2 =
      ⟨some ColorProfile.trueColor, some true, ColorProfile.trueColor⟩ ∧
    (Style.mk [("foreground",
        PropValue.pColor (TerminalColor.color (pys "#ff0000")))] []).render
      (((Style.mk [("foreground",
          PropValue.pColor (TerminalColor.color (pys "#ff0000")))] []).render
        ⟨some ColorProfile.trueColor, some true, ColorProfile.trueColor⟩
        [pys "hi"]).2.2) [pys "hi"] =
      (Style.mk [("foreground",
          PropValue.pColor (TerminalColor.color (pys "#ff0000")))] []).render
        ⟨some ColorProfile.trueColor, some true, ColorProfile.trueColor⟩
        [pys "hi"] :=
  c9_render_pure
    (Style.mk [("foreground",
      PropValue.pColor (TerminalColor.color (pys "#ff0000")))] [])
    ⟨some ColorProfile.trueColor, some true, ColorProfile.trueColor⟩
    ColorProfile.trueColor true [pys "hi"] rfl rfl

/-- C10: `render` accepts any number of string arguments and operates
on the single string obtained by joining them with one space: for a
nonempty argument list the render equals the render of the pre-joined
single argument; a nonempty string attached via `set_string` (on a
style with no previous value) acts as an extra first fragment; and for
a Style with no properties set, `render("a", "b")` returns `"a b"`. -/
theorem c10_render_join (s : Style) (ren : Renderer)
    (strings : List (List Char)) (v : List Char) :
    (strings ≠ [] →
      s.render ren strings = s.render ren [joinSep (pys " ") strings]) ∧
    (s.value = [] → v ≠ [] →
      ((s.setString [v]).render ren strings).1 =
        (s.render ren (v :: strings)).1) ∧
    (∀ r2 : Renderer, emptyStyle.render r2 [pys "a", pys "b"] =
      (some (pys "a b"), emptyStyle, r2)) := by
  refine ⟨?_, ?_, fun r2 => rfl⟩
  · intro hne
    unfold Style.render
    dsimp only
    have hj : joinSep (pys " ")
          (if s.value ≠ [] then s.value :: strings else strings) =
        joinSep (pys " ")
          (if s.value ≠ [] then s.value :: [joinSep (pys " ") strings]
            else [joinSep (pys " ") strings]) := by
      by_cases hv : s.value = []
      · simp only [hv, ne_eq, not_true_eq_false, if_false]
        rfl
      · rw [if_pos hv, if_pos hv]
        rw [joinSep_cons _ _ _ hne]
        rw [joinSep_cons _ _ _ (by simp)]
        rfl
    rw [hj]
  · intro hv hvne
    unfold Style.render Style.setString
    dsimp only
    rw [if_pos (show joinSep (pys " ") [v] ≠ [] from by simpa using hvne),
      if_neg (by simp [hv])]
    rfl

/-- C10 witness: a bold style with an attached value joins its two
arguments; the attached value of a value-free bold style is prepended;
the property-free render of "a", "b" is "a b". -/
theorem c10_render_join_witness :
    ((Style.mk [("bold", PropValue.pBool true)] (pys "v")).render
        ⟨some ColorProfile.trueColor, some true, ColorProfile.trueColor⟩
        [pys "x", pys "y"] =
      (Style.mk [("bold", PropValue.pBool true)] (pys "v")).render
        ⟨some ColorProfile.trueColor, some true, ColorProfile.trueColor⟩
        [joinSep (pys " ") [pys "x", pys "y"]]) ∧
    (((Style.mk [("bold", PropValue.pBool true)] []).setString
        [pys "v"]).render
        ⟨some ColorProfile.trueColor, some true, ColorProfile.trueColor⟩
        [pys "x"]).1 =
      ((Style.mk [("bold", PropValue.pBool true)] []).render
        ⟨some ColorProfile.trueColor, some true, ColorProfile.trueColor⟩
        [pys "v", pys "x"]).1 ∧
    emptyStyle.render
        ⟨some ColorProfile.trueColor, some true, ColorProfile.trueColor⟩
        [pys "a", pys "b"] =
      (some (pys "a b"), emptyStyle,
        ⟨some ColorProfile.trueColor, some true, ColorProfile.trueColor⟩) :=
  ⟨(c10_render_join (Style.mk [("bold", PropValue.pBool true)] (pys "v"))
      ⟨some ColorProfile.trueColor, some true, ColorProfile.trueColor⟩
      [pys "x", pys "y"] (pys "v")).1 (List.cons_ne_nil _ _),
    (c10_render_join (Style.mk [("bold", PropValue.pBool true)] [])
      ⟨some ColorProfile.trueColor, some true, ColorProfile.trueColor⟩
      [pys "x"] (pys "v")).2.1 rfl (List.cons_ne_nil _ _),
    (c10_render_join emptyStyle
      ⟨some ColorProfile.trueColor, some true, ColorProfile.trueColor⟩
      [] []).2.2
      ⟨some ColorProfile.trueColor, some true, ColorProfile.trueColor⟩⟩
